import Mathlib

/-!
Verification of the Monkey recursive-descent / Pratt parser
(`src/parser/mod.rs` of devalade/monkey_rust).

The parser is embedded shallowly: the mutable `Parser` struct becomes an
explicit state record, the lexer becomes a list of tokens (the lexer's
contract is that after the list is exhausted the end-of-input token is
returned idempotently forever), and the mutually recursive parsing
routines become a family of fuel-indexed functions.  Fuel is decremented
at every call; `PR.outOfFuel` marks exhaustion and is proved unreachable
for sufficiently large fuel.
-/

namespace MonkeyParsing

/-- Modelled from the spec: the `Token` type lives in `src/lexer/token.rs`,
which is not among the provided sources.  Spec §3 lists the constructors:
identifier (with name), integer/boolean/string literals (with value),
operator/punctuation kinds, keywords, and an end-of-input marker.
Constructors carrying a payload are suffixed with `T` where the bare
source name would clash with the payload's Lean type name. -/
inductive Token where
  | Ident (name : String)
  | IntT (value : Int)
  | BoolT (value : Bool)
  | StringT (value : String)
  | Assign
  | Plus
  | Minus
  | Slash
  | Asterisk
  | Bang
  | Eq
  | NotEq
  | LT
  | GT
  | Comma
  | Colon
  | Semicolon
  | LParen
  | RParen
  | LBracket
  | RBracket
  | LBrace
  | RBrace
  | Let
  | Return
  | Function
  | If
  | Else
  | EOF
deriving DecidableEq, Repr

/-- Modelled from the spec: `EOF_TOKEN` of `src/lexer/token.rs` (not among
the provided sources), the distinguished end-of-input marker. -/
def EOF_TOKEN : Token := Token.EOF

/-- Modelled from the spec: `Token::is_eof` of `src/lexer/token.rs` (not
among the provided sources) — whether the token is the end-of-input marker. -/
def Token.is_eof (t : Token) : Bool := t = Token.EOF

/-- Whether a token is an identifier (the `if let Token::Ident(_)` pattern
test of `parse_let_statement`, src/parser/mod.rs:108). -/
def Token.is_ident : Token → Bool
  | .Ident _ => true
  | _ => false

/-- Modelled from the spec: the display form of a token (spec §3 requires
"a display form for diagnostics"); used by the formatted error message of
`parse_expression` for `!` and `-`. -/
def Token.displayStr : Token → String
  | .Ident name => name
  | .IntT v => toString v
  | .BoolT b => toString b
  | .StringT s => s
  | .Assign => "="
  | .Plus => "+"
  | .Minus => "-"
  | .Slash => "/"
  | .Asterisk => "*"
  | .Bang => "!"
  | .Eq => "=="
  | .NotEq => "!="
  | .LT => "<"
  | .GT => ">"
  | .Comma => ","
  | .Colon => ":"
  | .Semicolon => ";"
  | .LParen => "("
  | .RParen => ")"
  | .LBracket => "["
  | .RBracket => "]"
  | .LBrace => "\x7b"
  | .RBrace => "\x7d"
  | .Let => "let"
  | .Return => "return"
  | .Function => "function"
  | .If => "if"
  | .Else => "else"
  | .EOF => "EOF"

/-- Modelled from the spec: the debug form of a token (Rust `{:?}`
derive-style, constructor name plus payload), used by the
"no prefix parse function for ..." error message. -/
def Token.debugStr : Token → String
  | .Ident name => "Ident(\"" ++ name ++ "\")"
  | .IntT v => "Int(" ++ toString v ++ ")"
  | .BoolT b => "Bool(" ++ toString b ++ ")"
  | .StringT s => "String(\"" ++ s ++ "\")"
  | .Assign => "Assign"
  | .Plus => "Plus"
  | .Minus => "Minus"
  | .Slash => "Slash"
  | .Asterisk => "Asterisk"
  | .Bang => "Bang"
  | .Eq => "Eq"
  | .NotEq => "NotEq"
  | .LT => "LT"
  | .GT => "GT"
  | .Comma => "Comma"
  | .Colon => "Colon"
  | .Semicolon => "Semicolon"
  | .LParen => "LParen"
  | .RParen => "RParen"
  | .LBracket => "LBracket"
  | .RBracket => "RBracket"
  | .LBrace => "LBrace"
  | .RBrace => "RBrace"
  | .Let => "Let"
  | .Return => "Return"
  | .Function => "Function"
  | .If => "If"
  | .Else => "Else"
  | .EOF => "EOF"

/-- `Ident` of `src/parser/program.rs` (spec §3): a named identifier
wrapping the identifier's text. -/
structure Ident where
  name : String
deriving DecidableEq, Repr

/-- Modelled from the spec: `Precedence` lives in `src/parser/program.rs`,
which is not among the provided sources.  Spec §3: a strictly ordered
enumeration of binding-power levels, Lowest < Equality < Relational <
Additive < Multiplicative < Prefix < Call/Index, supporting `add` (the
unary-minus rule of spec §4.3 uses `Prefix.add(1)`, one level tighter than
the plain prefix level).  Represented by natural numbers, which carry the
strict order and `add` directly. -/
abbrev Precedence := Nat

namespace Precedence

/-- Modelled from the spec: the Lowest binding-power level. -/
def lowest : Precedence := 0
/-- Modelled from the spec: the Equality (`==`, `!=`) level. -/
def equality : Precedence := 1
/-- Modelled from the spec: the Relational (`<`, `>`) level. -/
def relational : Precedence := 2
/-- Modelled from the spec: the Additive (`+`, `-`) level. -/
def additive : Precedence := 3
/-- Modelled from the spec: the Multiplicative (`*`, `/`) level. -/
def multiplicative : Precedence := 4
/-- Modelled from the spec: the level of the unary operators `!` and `-`
(the spec calls this level by the name of the unary-operator parsing rule;
renamed here because that word is a Lean keyword). -/
def unary : Precedence := 5
/-- Modelled from the spec: the Call/Index level (function application and
array/hash indexing). -/
def callIndex : Precedence := 6

/-- Modelled from the spec: `Precedence::add`, shifting a level up by the
given amount (used as `Prefix.add(1)` for unary minus). -/
def add (p : Precedence) (n : Nat) : Precedence := p + n

/-- Modelled from the spec: `Precedence::from_token` of
`src/parser/program.rs` (not among the provided sources).  Spec §3: every
infix-capable token maps to exactly one level; tokens with no infix role
map to Lowest.  Spec §4.3 lists the infix-capable tokens: `==`, `!=`, `<`,
`>`, `+`, `-`, `/`, `*`, `(` (call) and `[` (index). -/
def from_token : Token → Precedence
  | .Eq | .NotEq => equality
  | .LT | .GT => relational
  | .Plus | .Minus => additive
  | .Slash | .Asterisk => multiplicative
  | .LParen => callIndex
  | .LBracket => callIndex
  | _ => lowest

end Precedence

mutual
/-- `Expression` of `src/parser/program.rs` (spec §3). -/
inductive Expression where
  | Identifier (i : Ident)
  | IntLiteral (v : Int)
  | BoolLiteral (b : Bool)
  | StringLiteral (s : String)
  | PrefixExpression (op : Token) (right : Expression)
  | InfixExpression (left : Expression) (op : Token) (right : Expression)
  | IfExpression (cond : Expression) (consequence : List Statement)
      (alternative : List Statement)
  | FunctionExpression (params : List Ident) (body : List Statement)
  | CallExpression (callee : Expression) (args : List Expression)
  | ArrayLiteral (elems : List Expression)
  | IndexExpression (container : Expression) (index : Expression)
  | HashLiteral (pairs : List (Expression × Expression))

/-- `Statement` of `src/parser/program.rs` (spec §3). -/
inductive Statement where
  | LetStatement (name : Ident) (value : Expression)
  | ReturnStatement (value : Expression)
  | ExpressionStatement (e : Expression)
end

/-- `Program` of `src/parser/program.rs` (spec §3): the parse root, an
ordered sequence of top-level statements. -/
structure Program where
  statements : List Statement

/-- The `Parser` struct of `src/parser/mod.rs`: the lexer plus one token of
lookahead.  The lexer is embedded as the list of tokens it has not yet
produced; once the list is exhausted it produces `EOF` forever
(the input contract of spec §6). -/
structure Parser where
  cur_token : Token
  peek_token : Token
  rest : List Token
deriving DecidableEq, Repr

/-- `Parser::next_token` (src/parser/mod.rs:62-65): shift peek into
current and pull the next token from the lexer into peek. -/
def Parser.next_token (p : Parser) : Parser :=
  { cur_token := p.peek_token
    peek_token := p.rest.headD EOF_TOKEN
    rest := p.rest.tail }

/-- `Parser::new` (src/parser/mod.rs:50-60): both buffered tokens start as
`EOF_TOKEN` and the cursor is primed by advancing twice. -/
def Parser.new (ts : List Token) : Parser :=
  (Parser.mk EOF_TOKEN EOF_TOKEN ts).next_token.next_token

/-- `Parser::expect_peek` (src/parser/mod.rs:67-81): if peek equals the
expected token, advance and report success; otherwise leave the state
unchanged and report failure. -/
def Parser.expect_peek (p : Parser) (t : Token) : Bool × Parser :=
  if p.peek_token = t then (true, p.next_token) else (false, p)

/-- Result of a fuel-indexed parsing routine: success with a value and the
parser state left behind, a `ParseError` message (`Err` in the source), or
fuel exhaustion (no counterpart in the source; proved unreachable for
sufficiently large fuel). -/
inductive PR (α : Type) where
  | ok (a : α) (st : Parser)
  | err (msg : String)
  | outOfFuel
deriving Repr

/-- Sequencing of parse results: propagate errors and fuel exhaustion,
feed a success into the continuation (the `?` operator of the source). -/
def PR.andThen : PR α → (α → Parser → PR β) → PR β
  | .ok a p, f => f a p
  | .err msg, _ => .err msg
  | .outOfFuel, _ => .outOfFuel

/-- `Parser::parse_identifier` (src/parser/mod.rs:146-151); reads the
current token without advancing, so it needs no fuel. -/
def parse_identifier (p : Parser) : Except String Ident :=
  match p.cur_token with
  | .Ident v => .ok ⟨v⟩
  | _ => .error "not a ident token"

/-- `Parser::parse_int_literal` (src/parser/mod.rs:211-217). -/
def parse_int_literal (p : Parser) : Except String Expression :=
  match p.cur_token with
  | .IntT v => .ok (.IntLiteral v)
  | _ => .error "Token::Int not found"

/-- `Parser::parse_bool_literal` (src/parser/mod.rs:219-225). -/
def parse_bool_literal (p : Parser) : Except String Expression :=
  match p.cur_token with
  | .BoolT v => .ok (.BoolLiteral v)
  | _ => .error "Token::Bool not found"

/-- `Parser::parse_string_literal` (src/parser/mod.rs:227-233). -/
def parse_string_literal (p : Parser) : Except String Expression :=
  match p.cur_token with
  | .StringT v => .ok (.StringLiteral v)
  | _ => .error "Token::String not found"

/-- Lift a fuel-free `Except` computation into `PR`, keeping the state. -/
def PR.ofExcept : Except String α → Parser → PR α
  | .ok a, p => .ok a p
  | .error msg, _ => .err msg

/-- The family of mutually recursive parsing routines of
`src/parser/mod.rs`, at one fixed fuel level.  Loops in the source become
the `...Loop` members (carrying the accumulator that the source mutates). -/
structure Funs where
  parseProgramLoop : List Statement → Parser → PR Program
  parseStatement : Parser → PR Statement
  parseLetStatement : Parser → PR Statement
  parseReturnStatement : Parser → PR Statement
  parseExpressionStatement : Parser → PR Statement
  parseExpressionF : Precedence → Parser → PR Expression
  parseInfixLoop : Precedence → Expression → Parser → PR Expression
  parsePrefixExpressionF : Parser → PR Expression
  parseInfixExpressionF : Expression → Parser → PR Expression
  parseGroupedExpression : Parser → PR Expression
  parseIfExpressionF : Parser → PR Expression
  parseBlockStatement : Parser → PR (List Statement)
  parseBlockLoop : List Statement → Parser → PR (List Statement)
  parseFunctionLiteral : Parser → PR Expression
  parseFunctionParameters : Parser → PR (List Ident)
  parseParamsLoop : List Ident → Parser → PR (List Ident)
  parseArrayLiteral : Parser → PR Expression
  parseHashLiteral : Parser → PR Expression
  parseHashLoop : List (Expression × Expression) → Parser →
      PR (List (Expression × Expression))
  parseExpressionList : Token → Parser → PR (List Expression)
  parseListLoop : List Expression → Parser → PR (List Expression)
  parseCallExpression : Expression → Parser → PR Expression
  parseCallArguments : Parser → PR (List Expression)
  parseIndexExpression : Expression → Parser → PR Expression

/-- The loop of `Parser::parse_program` (src/parser/mod.rs:83-97): while
the current token is not end-of-input, parse a statement, append it, and
advance. -/
def stepProgramLoop (F : Funs) (acc : List Statement) (p : Parser) :
    PR Program :=
  if p.cur_token.is_eof then .ok ⟨acc⟩ p
  else
    PR.andThen (F.parseStatement p) fun st p =>
      F.parseProgramLoop (acc ++ [st]) p.next_token

/-- `Parser::parse_statement` (src/parser/mod.rs:99-105): dispatch on the
current token's kind. -/
def stepStatement (F : Funs) (p : Parser) : PR Statement :=
  match p.cur_token with
  | .Let => F.parseLetStatement p
  | .Return => F.parseReturnStatement p
  | _ => F.parseExpressionStatement p

/-- The tail of `Parser::parse_let_statement` (src/parser/mod.rs:111-123),
from the identifier read onwards, on the state left by the optional
initial advance. -/
def stepLetCore (F : Funs) (p : Parser) : PR Statement :=
  match parse_identifier p with
  | .error msg => .err msg
  | .ok name =>
    match p.expect_peek .Assign with
    | (false, _) => .err "no equal sign!"
    | (true, p) =>
      let p := p.next_token
      PR.andThen (F.parseExpressionF Precedence.lowest p) fun value p =>
        let p := if p.peek_token = .Semicolon then p.next_token else p
        .ok (.LetStatement name value) p

/-- `Parser::parse_let_statement` (src/parser/mod.rs:107-124): advance over
the identifier if one follows `let`, then the rest of the statement. -/
def stepLetStatement (F : Funs) (p : Parser) : PR Statement :=
  stepLetCore F (if p.peek_token.is_ident then p.next_token else p)

/-- `Parser::parse_return_statement` (src/parser/mod.rs:126-135). -/
def stepReturnStatement (F : Funs) (p : Parser) : PR Statement :=
  let p := p.next_token
  PR.andThen (F.parseExpressionF Precedence.lowest p) fun value p =>
    let p := if p.peek_token = .Semicolon then p.next_token else p
    .ok (.ReturnStatement value) p

/-- `Parser::parse_expression_statement` (src/parser/mod.rs:137-144). -/
def stepExpressionStatement (F : Funs) (p : Parser) : PR Statement :=
  PR.andThen (F.parseExpressionF Precedence.lowest p) fun value p =>
    let p := if p.peek_token = .Semicolon then p.next_token else p
    .ok (.ExpressionStatement value) p

/-- The prefix phase of `Parser::parse_expression`
(src/parser/mod.rs:153-182): dispatch once on the current token to obtain
the initial left operand. -/
def stepPrefixDispatch (F : Funs) (precedence : Precedence) (p : Parser) :
    PR Expression :=
  match p.cur_token with
  | .Ident _ =>
    match parse_identifier p with
    | .ok i => .ok (.Identifier i) p
    | .error msg => .err msg
  | .IntT _ => PR.ofExcept (parse_int_literal p) p
  | .BoolT _ => PR.ofExcept (parse_bool_literal p) p
  | .StringT _ => PR.ofExcept (parse_string_literal p) p
  | .Bang =>
    if Precedence.unary < precedence then
      .err ("'(' expected after prefix '" ++ p.cur_token.displayStr ++ "'")
    else F.parsePrefixExpressionF p
  | .Minus =>
    if Precedence.unary < precedence then
      .err ("'(' expected after prefix '" ++ p.cur_token.displayStr ++ "'")
    else F.parsePrefixExpressionF p
  | .LParen => F.parseGroupedExpression p
  | .If => F.parseIfExpressionF p
  | .Function => F.parseFunctionLiteral p
  | .LBracket => F.parseArrayLiteral p
  | .LBrace => F.parseHashLiteral p
  | t => .err ("no prefix parse function for " ++ t.debugStr)

/-- `Parser::parse_expression` (src/parser/mod.rs:153-209): the prefix
phase producing the initial left operand, then the infix loop. -/
def stepExpression (F : Funs) (precedence : Precedence) (p : Parser) :
    PR Expression :=
  PR.andThen (stepPrefixDispatch F precedence p) fun left p =>
    F.parseInfixLoop precedence left p

/-- The operator dispatch of the infix loop of `Parser::parse_expression`
(src/parser/mod.rs:193-205), on the state after advancing onto the
operator token. -/
def stepInfixDispatch (F : Funs) (precedence : Precedence)
    (left : Expression) (p : Parser) : PR Expression :=
  match p.cur_token with
  | .Eq | .NotEq | .LT | .GT | .Plus | .Minus | .Slash | .Asterisk =>
    PR.andThen (F.parseInfixExpressionF left p) fun left p =>
      F.parseInfixLoop precedence left p
  | .LParen =>
    PR.andThen (F.parseCallExpression left p) fun left p =>
      F.parseInfixLoop precedence left p
  | .LBracket =>
    PR.andThen (F.parseIndexExpression left p) fun left p =>
      F.parseInfixLoop precedence left p
  | _ => .ok left p

/-- The infix loop of `Parser::parse_expression`
(src/parser/mod.rs:184-208): while peek is not `;` and the minimum
precedence is below the peek token's precedence, advance onto the operator
and dispatch; any other token returns the accumulated left expression. -/
def stepInfixLoop (F : Funs) (precedence : Precedence) (left : Expression)
    (p : Parser) : PR Expression :=
  if p.peek_token = .Semicolon ∨
      Precedence.from_token p.peek_token ≤ precedence then
    .ok left p
  else stepInfixDispatch F precedence left p.next_token

/-- `Parser::parse_prefix_expression` (src/parser/mod.rs:235-245): unary
minus parses its operand one level tighter than the plain unary level. -/
def stepPrefixExpression (F : Funs) (p : Parser) : PR Expression :=
  let token := p.cur_token
  let precedence := match token with
    | .Minus => Precedence.unary.add 1
    | _ => Precedence.unary
  let p := p.next_token
  PR.andThen (F.parseExpressionF precedence p) fun right p =>
    .ok (.PrefixExpression token right) p

/-- `Parser::parse_infix_expression` (src/parser/mod.rs:247-262): the right
operand is parsed at the operator's own precedence level. -/
def stepInfixExpression (F : Funs) (left : Expression) (p : Parser) :
    PR Expression :=
  let precedence := Precedence.from_token p.cur_token
  let token := p.cur_token
  let p := p.next_token
  PR.andThen (F.parseExpressionF precedence p) fun right p =>
    .ok (.InfixExpression left token right) p

/-- `Parser::parse_grouped_expression` (src/parser/mod.rs:264-274). -/
def stepGroupedExpression (F : Funs) (p : Parser) : PR Expression :=
  let p := p.next_token
  PR.andThen (F.parseExpressionF Precedence.lowest p) fun exp p =>
    match p.expect_peek .RParen with
    | (true, p) => .ok exp p
    | (false, _) => .err "Right parentheses expected"

/-- `Parser::parse_if_expression` (src/parser/mod.rs:276-301).  Note the
alternative branch: the source computes it as `match self.peek_token
{ _ => vec![] }`, i.e. the empty statement list for every peek token. -/
def stepIfExpression (F : Funs) (p : Parser) : PR Expression :=
  match p.expect_peek .LParen with
  | (false, _) => .err "'(' expected after 'if'."
  | (true, p) =>
    let p := p.next_token
    PR.andThen (F.parseExpressionF Precedence.lowest p) fun condition p =>
      match p.expect_peek .RParen with
      | (false, _) => .err "')' expected after if condition expression"
      | (true, p) =>
        match p.expect_peek .LBrace with
        | (false, _) => .err "'\x7b' expected for block."
        | (true, p) =>
          PR.andThen (F.parseBlockStatement p) fun consequence p =>
            let alternative : List Statement :=
              match p.peek_token with
              | _ => []
            .ok (.IfExpression condition consequence alternative) p

/-- `Parser::parse_block_statement` (src/parser/mod.rs:303-314): advance
past the opening brace, then the block loop. -/
def stepBlockStatement (F : Funs) (p : Parser) : PR (List Statement) :=
  let p := p.next_token
  F.parseBlockLoop [] p

/-- The loop of `Parser::parse_block_statement`: while the current token
is not `}`, parse a statement, append it, and advance. -/
def stepBlockLoop (F : Funs) (acc : List Statement) (p : Parser) :
    PR (List Statement) :=
  if p.cur_token = .RBrace then .ok acc p
  else
    PR.andThen (F.parseStatement p) fun st p =>
      F.parseBlockLoop (acc ++ [st]) p.next_token

/-- `Parser::parse_function_literal` (src/parser/mod.rs:316-330). -/
def stepFunctionLiteral (F : Funs) (p : Parser) : PR Expression :=
  match p.expect_peek .LParen with
  | (false, _) => .err "'(' expected for function expression"
  | (true, p) =>
    PR.andThen (F.parseFunctionParameters p) fun params p =>
      match p.expect_peek .LBrace with
      | (false, _) => .err "'\x7b' expected for function body."
      | (true, p) =>
        PR.andThen (F.parseBlockStatement p) fun sts p =>
          .ok (.FunctionExpression params sts) p

/-- `Parser::parse_function_parameters` (src/parser/mod.rs:388-415):
advance, return the empty list if the current token is already `)`,
otherwise run the parameter loop. -/
def stepFunctionParameters (F : Funs) (p : Parser) : PR (List Ident) :=
  if p.next_token.cur_token = .RParen then .ok [] p.next_token
  else F.parseParamsLoop [] p.next_token

/-- One accumulator update of the parameter loop
(src/parser/mod.rs:398-400): collect the token when it is an identifier,
skip it otherwise. -/
def paramsCollect (acc : List Ident) : Token → List Ident
  | .Ident v => acc ++ [⟨v⟩]
  | _ => acc

/-- The loop of `Parser::parse_function_parameters`: collect the current
token when it is an identifier (any other token is skipped without an
error), continue past `,`, and finally require `)`. -/
def stepParamsLoop (F : Funs) (acc : List Ident) (p : Parser) :
    PR (List Ident) :=
  if p.peek_token = .Comma then
    F.parseParamsLoop (paramsCollect acc p.cur_token) p.next_token.next_token
  else
    match p.expect_peek .RParen with
    | (true, q) => .ok (paramsCollect acc p.cur_token) q
    | (false, _) => .err "')' expected for function parameters expression."

/-- `Parser::parse_array_literal` (src/parser/mod.rs:332-340). -/
def stepArrayLiteral (F : Funs) (p : Parser) : PR Expression :=
  PR.andThen (F.parseExpressionList .RBracket p) fun elements p =>
    match p.expect_peek .RBracket with
    | (true, p) => .ok (.ArrayLiteral elements) p
    | (false, _) => .err "']' expected for array definition."

/-- `Parser::parse_hash_literal` (src/parser/mod.rs:342-366): the pair
loop, then require `}`. -/
def stepHashLiteral (F : Funs) (p : Parser) : PR Expression :=
  PR.andThen (F.parseHashLoop [] p) fun pairs p =>
    match p.expect_peek .RBrace with
    | (true, p) => .ok (.HashLiteral pairs) p
    | (false, _) => .err "'\x7d' expected for Hash end."

/-- The loop of `Parser::parse_hash_literal`: while peek is not `}`,
advance, parse a key, require `:`, advance, parse a value, append the
pair, and require peek to be `}` or `,`. -/
def stepHashLoop (F : Funs) (acc : List (Expression × Expression))
    (p : Parser) : PR (List (Expression × Expression)) :=
  if p.peek_token = .RBrace then .ok acc p
  else
    let p := p.next_token
    PR.andThen (F.parseExpressionF Precedence.lowest p) fun key p =>
      match p.expect_peek .Colon with
      | (false, _) => .err "':' expected in Hash element."
      | (true, p) =>
        let p := p.next_token
        PR.andThen (F.parseExpressionF Precedence.lowest p) fun value p =>
          let acc := acc ++ [(key, value)]
          if p.peek_token ≠ .RBrace ∧ p.peek_token ≠ .Comma then
            .err "'\x7d' or ',' expected in Hash element."
          else F.parseHashLoop acc p

/-- `Parser::parse_expression_list` (src/parser/mod.rs:368-386): if peek
already equals the terminator, advance onto it and return the empty list;
otherwise advance, parse one expression, and enter the comma loop. -/
def stepExpressionList (F : Funs) (endTok : Token) (p : Parser) :
    PR (List Expression) :=
  if p.peek_token = endTok then .ok [] p.next_token
  else
    let p := p.next_token
    PR.andThen (F.parseExpressionF Precedence.lowest p) fun e p =>
      F.parseListLoop [e] p

/-- The comma loop of `Parser::parse_expression_list`: while peek is `,`,
advance past the comma and onto the next element and parse it. -/
def stepListLoop (F : Funs) (acc : List Expression) (p : Parser) :
    PR (List Expression) :=
  if p.peek_token = .Comma then
    let p := p.next_token.next_token
    PR.andThen (F.parseExpressionF Precedence.lowest p) fun e p =>
      F.parseListLoop (acc ++ [e]) p
  else .ok acc p

/-- `Parser::parse_call_expression` (src/parser/mod.rs:417-422). -/
def stepCallExpression (F : Funs) (function : Expression) (p : Parser) :
    PR Expression :=
  PR.andThen (F.parseCallArguments p) fun args p =>
    .ok (.CallExpression function args) p

/-- `Parser::parse_call_arguments` (src/parser/mod.rs:424-432). -/
def stepCallArguments (F : Funs) (p : Parser) : PR (List Expression) :=
  PR.andThen (F.parseExpressionList .RParen p) fun ret p =>
    match p.expect_peek .RParen with
    | (true, p) => .ok ret p
    | (false, _) => .err "')' expected for function call."

/-- `Parser::parse_index_expression` (src/parser/mod.rs:434-442). -/
def stepIndexExpression (F : Funs) (left : Expression) (p : Parser) :
    PR Expression :=
  let p := p.next_token
  PR.andThen (F.parseExpressionF Precedence.lowest p) fun index p =>
    match p.expect_peek .RBracket with
    | (true, p) => .ok (.IndexExpression left index) p
    | (false, _) => .err "']' expected for index end."

/-- All routines at fuel zero: out of fuel. -/
def funsZero : Funs where
  parseProgramLoop := fun _ _ => .outOfFuel
  parseStatement := fun _ => .outOfFuel
  parseLetStatement := fun _ => .outOfFuel
  parseReturnStatement := fun _ => .outOfFuel
  parseExpressionStatement := fun _ => .outOfFuel
  parseExpressionF := fun _ _ => .outOfFuel
  parseInfixLoop := fun _ _ _ => .outOfFuel
  parsePrefixExpressionF := fun _ => .outOfFuel
  parseInfixExpressionF := fun _ _ => .outOfFuel
  parseGroupedExpression := fun _ => .outOfFuel
  parseIfExpressionF := fun _ => .outOfFuel
  parseBlockStatement := fun _ => .outOfFuel
  parseBlockLoop := fun _ _ => .outOfFuel
  parseFunctionLiteral := fun _ => .outOfFuel
  parseFunctionParameters := fun _ => .outOfFuel
  parseParamsLoop := fun _ _ => .outOfFuel
  parseArrayLiteral := fun _ => .outOfFuel
  parseHashLiteral := fun _ => .outOfFuel
  parseHashLoop := fun _ _ => .outOfFuel
  parseExpressionList := fun _ _ => .outOfFuel
  parseListLoop := fun _ _ => .outOfFuel
  parseCallExpression := fun _ _ => .outOfFuel
  parseCallArguments := fun _ => .outOfFuel
  parseIndexExpression := fun _ _ => .outOfFuel

/-- One fuel step: every routine runs its body, with all (mutually)
recursive calls taken at the previous fuel level. -/
def funsStep (F : Funs) : Funs where
  parseProgramLoop := stepProgramLoop F
  parseStatement := stepStatement F
  parseLetStatement := stepLetStatement F
  parseReturnStatement := stepReturnStatement F
  parseExpressionStatement := stepExpressionStatement F
  parseExpressionF := stepExpression F
  parseInfixLoop := stepInfixLoop F
  parsePrefixExpressionF := stepPrefixExpression F
  parseInfixExpressionF := stepInfixExpression F
  parseGroupedExpression := stepGroupedExpression F
  parseIfExpressionF := stepIfExpression F
  parseBlockStatement := stepBlockStatement F
  parseBlockLoop := stepBlockLoop F
  parseFunctionLiteral := stepFunctionLiteral F
  parseFunctionParameters := stepFunctionParameters F
  parseParamsLoop := stepParamsLoop F
  parseArrayLiteral := stepArrayLiteral F
  parseHashLiteral := stepHashLiteral F
  parseHashLoop := stepHashLoop F
  parseExpressionList := stepExpressionList F
  parseListLoop := stepListLoop F
  parseCallExpression := stepCallExpression F
  parseCallArguments := stepCallArguments F
  parseIndexExpression := stepIndexExpression F

/-- The fuel-indexed family of parsing routines. -/
def funs : Nat → Funs
  | 0 => funsZero
  | n + 1 => funsStep (funs n)

/-- `Parser::parse_program` (src/parser/mod.rs:83-97) at the given fuel,
started on the given parser state. -/
def parse_program (fuel : Nat) (p : Parser) : PR Program :=
  (funs fuel).parseProgramLoop [] p

/-- `Parser::parse_expression` (src/parser/mod.rs:153-209) at the given
fuel. -/
def parse_expression (fuel : Nat) (precedence : Precedence) (p : Parser) :
    PR Expression :=
  (funs fuel).parseExpressionF precedence p

/-- `Parser::parse_if_expression` (src/parser/mod.rs:276-301) at the given
fuel. -/
def parse_if_expression (fuel : Nat) (p : Parser) : PR Expression :=
  (funs fuel).parseIfExpressionF p

/-- `Parser::parse_hash_literal` (src/parser/mod.rs:342-366) at the given
fuel. -/
def parse_hash_literal (fuel : Nat) (p : Parser) : PR Expression :=
  (funs fuel).parseHashLiteral p

/-- `Parser::parse_expression_list` (src/parser/mod.rs:368-386) at the
given fuel. -/
def parse_expression_list (fuel : Nat) (endTok : Token) (p : Parser) :
    PR (List Expression) :=
  (funs fuel).parseExpressionList endTok p

/-- `Parser::parse_function_parameters` (src/parser/mod.rs:388-415) at the
given fuel. -/
def parse_function_parameters (fuel : Nat) (p : Parser) :
    PR (List Ident) :=
  (funs fuel).parseFunctionParameters p

/-- Forget the final parser state, keeping only success/failure: `none`
marks fuel exhaustion. -/
def PR.strip : PR α → Option (Except String α)
  | .ok a _ => some (.ok a)
  | .err msg => some (.error msg)
  | .outOfFuel => none

/-- Run the parser end to end on a token stream, as the surrounding
pipeline does: prime the cursor (`Parser::new`) and call
`parse_program`. -/
def parse (fuel : Nat) (ts : List Token) : Option (Except String Program) :=
  (parse_program fuel (Parser.new ts)).strip

/-! ### Termination measure

The number of meaningful (non-EOF) tokens the cursor still holds.  Every
`next_token` keeps it from growing, and strictly shrinks it while the
current token is not EOF — the quantity the spec's bounded-steps argument
(§5) is about. -/

/-- Weight of one buffered token: EOF counts for nothing. -/
def tokenWeight (t : Token) : Nat := if t = Token.EOF then 0 else 1

/-- The termination measure of a parser state. -/
def Parser.size (p : Parser) : Nat :=
  tokenWeight p.cur_token + tokenWeight p.peek_token + p.rest.length

/-- A parse result shrinks from `p`: on success the final state's measure
is no larger than `p`'s and its current token is not EOF. -/
def ShrinkP {α : Type} (p : Parser) (r : PR α) : Prop :=
  ∀ ⦃a : α⦄ ⦃p' : Parser⦄, r = .ok a p' →
    p'.size ≤ p.size ∧ p'.cur_token ≠ Token.EOF

/-! ### Basic lemmas about the cursor, results, and the measure -/

lemma tokenWeight_le (t : Token) : tokenWeight t ≤ 1 := by
  unfold tokenWeight; split <;> omega

lemma tokenWeight_of_ne {t : Token} (h : t ≠ Token.EOF) : tokenWeight t = 1 := by
  simp [tokenWeight, h]

@[simp] lemma tokenWeight_eof : tokenWeight Token.EOF = 0 := rfl

lemma Parser.size_next_le (p : Parser) : p.next_token.size ≤ p.size := by
  cases hr : p.rest with
  | nil =>
    simp [Parser.next_token, Parser.size, hr, EOF_TOKEN]
  | cons t ts =>
    have := tokenWeight_le t
    simp [Parser.next_token, Parser.size, hr]
    omega

lemma Parser.size_next2_le (p : Parser) :
    p.next_token.next_token.size ≤ p.size :=
  le_trans p.next_token.size_next_le p.size_next_le

lemma Parser.size_next_lt (p : Parser) (h : p.cur_token ≠ Token.EOF) :
    p.next_token.size < p.size := by
  have hw := tokenWeight_of_ne h
  cases hr : p.rest with
  | nil =>
    simp [Parser.next_token, Parser.size, hr, EOF_TOKEN, hw]
  | cons t ts =>
    have := tokenWeight_le t
    simp [Parser.next_token, Parser.size, hr, hw]
    omega

@[simp] lemma PR.andThen_ok_ctor {α β : Type} (a : α) (p : Parser)
    (f : α → Parser → PR β) : PR.andThen (.ok a p) f = f a p := rfl

@[simp] lemma PR.andThen_err_ctor {α β : Type} (m : String)
    (f : α → Parser → PR β) : PR.andThen (.err m) f = .err m := rfl

@[simp] lemma PR.andThen_oof_ctor {α β : Type} (f : α → Parser → PR β) :
    PR.andThen (.outOfFuel : PR α) f = .outOfFuel := rfl

lemma PR.andThen_eq_ok {α β : Type} {x : PR α} {f : α → Parser → PR β}
    {b : β} {p' : Parser} (h : PR.andThen x f = .ok b p') :
    ∃ a q, x = .ok a q ∧ f a q = .ok b p' := by
  cases x with
  | ok a q => exact ⟨a, q, rfl, h⟩
  | err m => simp [PR.andThen] at h
  | outOfFuel => simp [PR.andThen] at h

lemma PR.andThen_ne_oof {α β : Type} {x : PR α} {f : α → Parser → PR β}
    (hx : x ≠ .outOfFuel)
    (hf : ∀ a q, x = .ok a q → f a q ≠ .outOfFuel) :
    PR.andThen x f ≠ .outOfFuel := by
  cases x with
  | ok a q => exact hf a q rfl
  | err m => simp [PR.andThen]
  | outOfFuel => exact absurd rfl hx

lemma PR.strip_eq_none_iff {α : Type} (r : PR α) :
    r.strip = none ↔ r = .outOfFuel := by
  cases r <;> simp [PR.strip]

lemma Parser.expect_peek_pos {p : Parser} {t : Token}
    (h : p.peek_token = t) : p.expect_peek t = (true, p.next_token) := by
  simp [Parser.expect_peek, h]

lemma Parser.expect_peek_neg {p : Parser} {t : Token}
    (h : ¬ p.peek_token = t) : p.expect_peek t = (false, p) := by
  simp [Parser.expect_peek, h]

lemma Parser.expect_peek_eq_true {p : Parser} {t : Token} {q : Parser}
    (h : p.expect_peek t = (true, q)) :
    q = p.next_token ∧ p.peek_token = t := by
  unfold Parser.expect_peek at h
  split at h
  · rename_i hp
    injection h with h1 h2
    exact ⟨h2.symm, hp⟩
  · simp at h

lemma Parser.expect_peek_eq_false {p : Parser} {t : Token} {q : Parser}
    (h : p.expect_peek t = (false, q)) :
    q = p ∧ p.peek_token ≠ t := by
  unfold Parser.expect_peek at h
  split at h
  · simp at h
  · rename_i hp
    injection h with h1 h2
    exact ⟨h2.symm, hp⟩

/-- The optional trailing semicolon step shared by the statement parsers
(src/parser/mod.rs:120-122, 130-132, 139-141). -/
lemma shrink_semiOpt {q : Parser} (hq : q.cur_token ≠ Token.EOF) :
    (if q.peek_token = Token.Semicolon then q.next_token else q).size ≤ q.size ∧
    (if q.peek_token = Token.Semicolon then q.next_token else q).cur_token ≠
      Token.EOF := by
  split
  · rename_i hpk
    refine ⟨q.size_next_le, ?_⟩
    simp [Parser.next_token, hpk]
  · exact ⟨le_rfl, hq⟩

/-! ### Combinators for the shrink invariant -/

lemma ShrinkP.err {α : Type} {p : Parser} {m : String} :
    ShrinkP p (.err m : PR α) := fun _ _ he => nomatch he

lemma ShrinkP.oof {α : Type} {p : Parser} :
    ShrinkP p (.outOfFuel : PR α) := fun _ _ he => nomatch he

lemma ShrinkP.ok_of {α : Type} {p : Parser} {a : α} (q : Parser)
    (hle : q.size ≤ p.size) (hc : q.cur_token ≠ Token.EOF) :
    ShrinkP p (.ok a q) := by
  intro b p' he
  cases he
  exact ⟨hle, hc⟩

lemma ShrinkP.mono {α : Type} {r : PR α} {p q : Parser}
    (hqp : q.size ≤ p.size) (h : ShrinkP q r) : ShrinkP p r := by
  intro a p' he
  obtain ⟨h1, h2⟩ := h he
  exact ⟨le_trans h1 hqp, h2⟩

lemma ShrinkP.andThen {α β : Type} {x : PR α} {f : α → Parser → PR β}
    {p : Parser} (hx : ShrinkP p x)
    (hf : ∀ a q, x = .ok a q → ShrinkP q (f a q)) :
    ShrinkP p (x.andThen f) := by
  intro b p' h
  obtain ⟨a, q, hxa, hfa⟩ := PR.andThen_eq_ok h
  obtain ⟨h1, h2⟩ := hx hxa
  obtain ⟨h3, h4⟩ := hf a q hxa hfa
  exact ⟨le_trans h3 h1, h4⟩

/-- Like `ShrinkP.andThen`, but the continuation may additionally use the
shrink facts about the intermediate state. -/
lemma ShrinkP.andThen2 {α β : Type} {x : PR α} {f : α → Parser → PR β}
    {p : Parser} (hx : ShrinkP p x)
    (hf : ∀ a q, x = .ok a q → q.size ≤ p.size →
      q.cur_token ≠ Token.EOF → ShrinkP q (f a q)) :
    ShrinkP p (x.andThen f) := by
  intro b p' h
  obtain ⟨a, q, hxa, hfa⟩ := PR.andThen_eq_ok h
  obtain ⟨h1, h2⟩ := hx hxa
  obtain ⟨h3, h4⟩ := hf a q hxa h1 h2 hfa
  exact ⟨le_trans h3 h1, h4⟩

/-! ### The shrink invariant, per parsing routine

Each `shrink_step...` lemma proves the invariant for one routine's body at
one fuel level, from the invariant for the routines it calls (one fuel
level below); `shrink_all` then closes the loop by induction on fuel. -/

section ShrinkSteps
variable {F : Funs}

lemma shrink_stepExpressionStatement
    (hexpr : ∀ prec p, ShrinkP p (F.parseExpressionF prec p)) (p : Parser) :
    ShrinkP p (stepExpressionStatement F p) := by
  unfold stepExpressionStatement
  refine ShrinkP.andThen (hexpr _ _) fun v q hq => ?_
  obtain ⟨-, hqc⟩ := hexpr _ _ hq
  obtain ⟨hs, hc⟩ := shrink_semiOpt hqc
  exact ShrinkP.ok_of _ hs hc

lemma shrink_stepReturnStatement
    (hexpr : ∀ prec p, ShrinkP p (F.parseExpressionF prec p)) (p : Parser) :
    ShrinkP p (stepReturnStatement F p) := by
  unfold stepReturnStatement
  refine ShrinkP.mono p.size_next_le ?_
  refine ShrinkP.andThen (hexpr _ _) fun v q hq => ?_
  obtain ⟨-, hqc⟩ := hexpr _ _ hq
  obtain ⟨hs, hc⟩ := shrink_semiOpt hqc
  exact ShrinkP.ok_of _ hs hc

lemma shrink_stepLetCore
    (hexpr : ∀ prec p, ShrinkP p (F.parseExpressionF prec p)) (p : Parser) :
    ShrinkP p (stepLetCore F p) := by
  unfold stepLetCore
  split
  · exact ShrinkP.err
  · by_cases hpk : p.peek_token = Token.Assign
    · simp only [Parser.expect_peek_pos hpk]
      refine ShrinkP.mono (le_trans p.next_token.size_next_le p.size_next_le) ?_
      refine ShrinkP.andThen (hexpr _ _) fun v q hq => ?_
      obtain ⟨-, hqc⟩ := hexpr _ _ hq
      obtain ⟨hs, hc⟩ := shrink_semiOpt hqc
      exact ShrinkP.ok_of _ hs hc
    · simp only [Parser.expect_peek_neg hpk]
      exact ShrinkP.err

lemma shrink_stepLetStatement
    (hexpr : ∀ prec p, ShrinkP p (F.parseExpressionF prec p)) (p : Parser) :
    ShrinkP p (stepLetStatement F p) := by
  unfold stepLetStatement
  refine ShrinkP.mono ?_ (shrink_stepLetCore hexpr _)
  split
  · exact p.size_next_le
  · exact le_rfl

lemma shrink_stepStatement
    (hlet : ∀ p, ShrinkP p (F.parseLetStatement p))
    (hret : ∀ p, ShrinkP p (F.parseReturnStatement p))
    (hexps : ∀ p, ShrinkP p (F.parseExpressionStatement p)) (p : Parser) :
    ShrinkP p (stepStatement F p) := by
  unfold stepStatement
  split
  · exact hlet p
  · exact hret p
  · exact hexps p

lemma shrink_stepPrefixDispatch
    (hpre : ∀ p, ShrinkP p (F.parsePrefixExpressionF p))
    (hgrp : ∀ p, ShrinkP p (F.parseGroupedExpression p))
    (hif : ∀ p, ShrinkP p (F.parseIfExpressionF p))
    (hfn : ∀ p, ShrinkP p (F.parseFunctionLiteral p))
    (harr : ∀ p, ShrinkP p (F.parseArrayLiteral p))
    (hhash : ∀ p, p.cur_token ≠ Token.EOF → ShrinkP p (F.parseHashLiteral p))
    (precedence : Precedence) (p : Parser) :
    ShrinkP p (stepPrefixDispatch F precedence p) := by
  unfold stepPrefixDispatch
  split
  · rename_i heq
    simp only [parse_identifier, heq]
    exact ShrinkP.ok_of p le_rfl (by simp [heq])
  · rename_i heq
    simp only [parse_int_literal, heq, PR.ofExcept]
    exact ShrinkP.ok_of p le_rfl (by simp [heq])
  · rename_i heq
    simp only [parse_bool_literal, heq, PR.ofExcept]
    exact ShrinkP.ok_of p le_rfl (by simp [heq])
  · rename_i heq
    simp only [parse_string_literal, heq, PR.ofExcept]
    exact ShrinkP.ok_of p le_rfl (by simp [heq])
  · split
    · exact ShrinkP.err
    · exact hpre p
  · split
    · exact ShrinkP.err
    · exact hpre p
  · exact hgrp p
  · exact hif p
  · exact hfn p
  · exact harr p
  · rename_i heq
    exact hhash p (by simp [heq])
  · exact ShrinkP.err

lemma shrink_stepExpression
    (hpre : ∀ p, ShrinkP p (F.parsePrefixExpressionF p))
    (hgrp : ∀ p, ShrinkP p (F.parseGroupedExpression p))
    (hif : ∀ p, ShrinkP p (F.parseIfExpressionF p))
    (hfn : ∀ p, ShrinkP p (F.parseFunctionLiteral p))
    (harr : ∀ p, ShrinkP p (F.parseArrayLiteral p))
    (hhash : ∀ p, p.cur_token ≠ Token.EOF → ShrinkP p (F.parseHashLiteral p))
    (hloop : ∀ prec left p, p.cur_token ≠ Token.EOF →
      ShrinkP p (F.parseInfixLoop prec left p))
    (precedence : Precedence) (p : Parser) :
    ShrinkP p (stepExpression F precedence p) := by
  unfold stepExpression
  exact ShrinkP.andThen2
    (shrink_stepPrefixDispatch hpre hgrp hif hfn harr hhash precedence p)
    fun v q _ _ hcur => hloop _ v q hcur

lemma shrink_stepInfixDispatch
    (hinfx : ∀ left p, ShrinkP p (F.parseInfixExpressionF left p))
    (hcall : ∀ left p, ShrinkP p (F.parseCallExpression left p))
    (hidx : ∀ left p, ShrinkP p (F.parseIndexExpression left p))
    (hloop : ∀ prec left p, p.cur_token ≠ Token.EOF →
      ShrinkP p (F.parseInfixLoop prec left p))
    (precedence : Precedence) (left : Expression) (p : Parser)
    (hc : p.cur_token ≠ Token.EOF) :
    ShrinkP p (stepInfixDispatch F precedence left p) := by
  unfold stepInfixDispatch
  split <;>
    first
      | exact ShrinkP.andThen2 (hinfx _ _) fun v q _ _ hcur => hloop _ _ _ hcur
      | exact ShrinkP.andThen2 (hcall _ _) fun v q _ _ hcur => hloop _ _ _ hcur
      | exact ShrinkP.andThen2 (hidx _ _) fun v q _ _ hcur => hloop _ _ _ hcur
      | exact ShrinkP.ok_of p le_rfl hc

lemma shrink_stepInfixLoop
    (hinfx : ∀ left p, ShrinkP p (F.parseInfixExpressionF left p))
    (hcall : ∀ left p, ShrinkP p (F.parseCallExpression left p))
    (hidx : ∀ left p, ShrinkP p (F.parseIndexExpression left p))
    (hloop : ∀ prec left p, p.cur_token ≠ Token.EOF →
      ShrinkP p (F.parseInfixLoop prec left p))
    (precedence : Precedence) (left : Expression) (p : Parser)
    (hc : p.cur_token ≠ Token.EOF) :
    ShrinkP p (stepInfixLoop F precedence left p) := by
  unfold stepInfixLoop
  split
  · exact ShrinkP.ok_of p le_rfl hc
  · rename_i hcond
    have hpeek : p.peek_token ≠ Token.EOF := by
      intro he
      exact hcond (Or.inr (by rw [he]; exact Nat.zero_le _))
    exact ShrinkP.mono p.size_next_le
      (shrink_stepInfixDispatch hinfx hcall hidx hloop precedence left
        p.next_token hpeek)

lemma shrink_stepPrefixExpression
    (hexpr : ∀ prec p, ShrinkP p (F.parseExpressionF prec p)) (p : Parser) :
    ShrinkP p (stepPrefixExpression F p) := by
  unfold stepPrefixExpression
  exact ShrinkP.mono p.size_next_le
    (ShrinkP.andThen2 (hexpr _ _) fun v q _ _ hcur => ShrinkP.ok_of q le_rfl hcur)

lemma shrink_stepInfixExpression
    (hexpr : ∀ prec p, ShrinkP p (F.parseExpressionF prec p))
    (left : Expression) (p : Parser) :
    ShrinkP p (stepInfixExpression F left p) := by
  unfold stepInfixExpression
  exact ShrinkP.mono p.size_next_le
    (ShrinkP.andThen2 (hexpr _ _) fun v q _ _ hcur => ShrinkP.ok_of q le_rfl hcur)

lemma shrink_stepGroupedExpression
    (hexpr : ∀ prec p, ShrinkP p (F.parseExpressionF prec p)) (p : Parser) :
    ShrinkP p (stepGroupedExpression F p) := by
  unfold stepGroupedExpression
  refine ShrinkP.mono p.size_next_le
    (ShrinkP.andThen2 (hexpr _ _) fun v q _ _ _ => ?_)
  by_cases hpk : q.peek_token = Token.RParen
  · simp only [Parser.expect_peek_pos hpk]
    exact ShrinkP.ok_of _ q.size_next_le (by simp [Parser.next_token, hpk])
  · simp only [Parser.expect_peek_neg hpk]
    exact ShrinkP.err

lemma shrink_stepIfExpression
    (hexpr : ∀ prec p, ShrinkP p (F.parseExpressionF prec p))
    (hblk : ∀ p, ShrinkP p (F.parseBlockStatement p)) (p : Parser) :
    ShrinkP p (stepIfExpression F p) := by
  unfold stepIfExpression
  by_cases h1 : p.peek_token = Token.LParen
  · simp only [Parser.expect_peek_pos h1]
    refine ShrinkP.mono (le_trans p.next_token.size_next_le p.size_next_le) ?_
    refine ShrinkP.andThen2 (hexpr _ _) fun cond q _ _ _ => ?_
    by_cases h2 : q.peek_token = Token.RParen
    · simp only [Parser.expect_peek_pos h2]
      by_cases h3 : q.next_token.peek_token = Token.LBrace
      · simp only [Parser.expect_peek_pos h3]
        refine ShrinkP.mono q.size_next2_le ?_
        refine ShrinkP.andThen2 (hblk _) fun cons r _ _ hcurr => ?_
        exact ShrinkP.ok_of r le_rfl hcurr
      · simp only [Parser.expect_peek_neg h3]
        exact ShrinkP.err
    · simp only [Parser.expect_peek_neg h2]
      exact ShrinkP.err
  · simp only [Parser.expect_peek_neg h1]
    exact ShrinkP.err

lemma shrink_stepBlockStatement
    (hbloop : ∀ acc p, ShrinkP p (F.parseBlockLoop acc p)) (p : Parser) :
    ShrinkP p (stepBlockStatement F p) := by
  unfold stepBlockStatement
  exact ShrinkP.mono p.size_next_le (hbloop [] _)

lemma shrink_stepBlockLoop
    (hstmt : ∀ p, ShrinkP p (F.parseStatement p))
    (hbloop : ∀ acc p, ShrinkP p (F.parseBlockLoop acc p))
    (acc : List Statement) (p : Parser) :
    ShrinkP p (stepBlockLoop F acc p) := by
  unfold stepBlockLoop
  split
  · rename_i hcur
    exact ShrinkP.ok_of p le_rfl (by simp [hcur])
  · refine ShrinkP.andThen2 (hstmt p) fun st q _ _ _ => ?_
    exact ShrinkP.mono q.size_next_le (hbloop _ _)

lemma shrink_stepFunctionLiteral
    (hparams : ∀ p, ShrinkP p (F.parseFunctionParameters p))
    (hblk : ∀ p, ShrinkP p (F.parseBlockStatement p)) (p : Parser) :
    ShrinkP p (stepFunctionLiteral F p) := by
  unfold stepFunctionLiteral
  by_cases h1 : p.peek_token = Token.LParen
  · simp only [Parser.expect_peek_pos h1]
    refine ShrinkP.mono p.size_next_le ?_
    refine ShrinkP.andThen2 (hparams _) fun params q _ _ _ => ?_
    by_cases h2 : q.peek_token = Token.LBrace
    · simp only [Parser.expect_peek_pos h2]
      refine ShrinkP.mono q.size_next_le ?_
      exact ShrinkP.andThen2 (hblk _) fun sts r _ _ hcurr =>
        ShrinkP.ok_of r le_rfl hcurr
    · simp only [Parser.expect_peek_neg h2]
      exact ShrinkP.err
  · simp only [Parser.expect_peek_neg h1]
    exact ShrinkP.err

lemma shrink_stepFunctionParameters
    (hploop : ∀ acc p, ShrinkP p (F.parseParamsLoop acc p)) (p : Parser) :
    ShrinkP p (stepFunctionParameters F p) := by
  unfold stepFunctionParameters
  split
  · rename_i hcur
    exact ShrinkP.ok_of _ p.size_next_le (by simp [hcur])
  · exact ShrinkP.mono p.size_next_le (hploop [] _)

lemma shrink_stepParamsLoop
    (hploop : ∀ acc p, ShrinkP p (F.parseParamsLoop acc p))
    (acc : List Ident) (p : Parser) :
    ShrinkP p (stepParamsLoop F acc p) := by
  unfold stepParamsLoop
  split
  · exact ShrinkP.mono p.size_next2_le (hploop _ _)
  · by_cases hpk : p.peek_token = Token.RParen
    · simp only [Parser.expect_peek_pos hpk]
      exact ShrinkP.ok_of _ p.size_next_le (by simp [Parser.next_token, hpk])
    · simp only [Parser.expect_peek_neg hpk]
      exact ShrinkP.err

lemma shrink_stepArrayLiteral
    (hlist : ∀ endTok p, endTok ≠ Token.EOF →
      ShrinkP p (F.parseExpressionList endTok p)) (p : Parser) :
    ShrinkP p (stepArrayLiteral F p) := by
  unfold stepArrayLiteral
  refine ShrinkP.andThen2 (hlist .RBracket p (by simp)) fun elems q _ _ _ => ?_
  by_cases hpk : q.peek_token = Token.RBracket
  · simp only [Parser.expect_peek_pos hpk]
    exact ShrinkP.ok_of _ q.size_next_le (by simp [Parser.next_token, hpk])
  · simp only [Parser.expect_peek_neg hpk]
    exact ShrinkP.err

lemma shrink_stepHashLiteral
    (hhloop : ∀ acc p, p.cur_token ≠ Token.EOF →
      ShrinkP p (F.parseHashLoop acc p))
    (p : Parser) (hc : p.cur_token ≠ Token.EOF) :
    ShrinkP p (stepHashLiteral F p) := by
  unfold stepHashLiteral
  refine ShrinkP.andThen2 (hhloop [] p hc) fun pairs q _ _ _ => ?_
  by_cases hpk : q.peek_token = Token.RBrace
  · simp only [Parser.expect_peek_pos hpk]
    exact ShrinkP.ok_of _ q.size_next_le (by simp [Parser.next_token, hpk])
  · simp only [Parser.expect_peek_neg hpk]
    exact ShrinkP.err

lemma shrink_stepHashLoop
    (hexpr : ∀ prec p, ShrinkP p (F.parseExpressionF prec p))
    (hhloop : ∀ acc p, p.cur_token ≠ Token.EOF →
      ShrinkP p (F.parseHashLoop acc p))
    (acc : List (Expression × Expression)) (p : Parser)
    (hc : p.cur_token ≠ Token.EOF) :
    ShrinkP p (stepHashLoop F acc p) := by
  unfold stepHashLoop
  split
  · exact ShrinkP.ok_of p le_rfl hc
  · refine ShrinkP.mono p.size_next_le
      (ShrinkP.andThen2 (hexpr _ _) fun key q _ _ _ => ?_)
    by_cases h2 : q.peek_token = Token.Colon
    · simp only [Parser.expect_peek_pos h2]
      refine ShrinkP.mono q.size_next2_le
        (ShrinkP.andThen2 (hexpr _ _) fun value r _ _ hcurr => ?_)
      split
      · exact ShrinkP.err
      · exact hhloop _ _ hcurr
    · simp only [Parser.expect_peek_neg h2]
      exact ShrinkP.err

lemma shrink_stepExpressionList
    (hexpr : ∀ prec p, ShrinkP p (F.parseExpressionF prec p))
    (hlloop : ∀ acc p, p.cur_token ≠ Token.EOF →
      ShrinkP p (F.parseListLoop acc p))
    (endTok : Token) (p : Parser) (hend : endTok ≠ Token.EOF) :
    ShrinkP p (stepExpressionList F endTok p) := by
  unfold stepExpressionList
  split
  · rename_i hpk
    refine ShrinkP.ok_of _ p.size_next_le ?_
    show p.peek_token ≠ Token.EOF
    rw [hpk]
    exact hend
  · exact ShrinkP.mono p.size_next_le
      (ShrinkP.andThen2 (hexpr _ _) fun e q _ _ hcur => hlloop _ _ hcur)

lemma shrink_stepListLoop
    (hexpr : ∀ prec p, ShrinkP p (F.parseExpressionF prec p))
    (hlloop : ∀ acc p, p.cur_token ≠ Token.EOF →
      ShrinkP p (F.parseListLoop acc p))
    (acc : List Expression) (p : Parser) (hc : p.cur_token ≠ Token.EOF) :
    ShrinkP p (stepListLoop F acc p) := by
  unfold stepListLoop
  split
  · exact ShrinkP.mono p.size_next2_le
      (ShrinkP.andThen2 (hexpr _ _) fun e q _ _ hcur => hlloop _ _ hcur)
  · exact ShrinkP.ok_of p le_rfl hc

lemma shrink_stepCallExpression
    (hargs : ∀ p, ShrinkP p (F.parseCallArguments p))
    (function : Expression) (p : Parser) :
    ShrinkP p (stepCallExpression F function p) := by
  unfold stepCallExpression
  exact ShrinkP.andThen2 (hargs _) fun args q _ _ hcur =>
    ShrinkP.ok_of q le_rfl hcur

lemma shrink_stepCallArguments
    (hlist : ∀ endTok p, endTok ≠ Token.EOF →
      ShrinkP p (F.parseExpressionList endTok p)) (p : Parser) :
    ShrinkP p (stepCallArguments F p) := by
  unfold stepCallArguments
  refine ShrinkP.andThen2 (hlist .RParen p (by simp)) fun ret q _ _ _ => ?_
  by_cases hpk : q.peek_token = Token.RParen
  · simp only [Parser.expect_peek_pos hpk]
    exact ShrinkP.ok_of _ q.size_next_le (by simp [Parser.next_token, hpk])
  · simp only [Parser.expect_peek_neg hpk]
    exact ShrinkP.err

lemma shrink_stepIndexExpression
    (hexpr : ∀ prec p, ShrinkP p (F.parseExpressionF prec p))
    (left : Expression) (p : Parser) :
    ShrinkP p (stepIndexExpression F left p) := by
  unfold stepIndexExpression
  refine ShrinkP.mono p.size_next_le
    (ShrinkP.andThen2 (hexpr _ _) fun index q _ _ _ => ?_)
  by_cases hpk : q.peek_token = Token.RBracket
  · simp only [Parser.expect_peek_pos hpk]
    exact ShrinkP.ok_of _ q.size_next_le (by simp [Parser.next_token, hpk])
  · simp only [Parser.expect_peek_neg hpk]
    exact ShrinkP.err

end ShrinkSteps

/-- The shrink invariant holds for every routine at every fuel level:
a successful parse never grows the measure and never leaves the cursor on
EOF (the hypotheses mirror the states the routines are actually entered
in: loops that can return their input state unchanged are entered with a
non-EOF current token, and expression lists are terminated by a non-EOF
delimiter). -/
theorem shrink_all (n : Nat) :
    (∀ prec p, ShrinkP p ((funs n).parseExpressionF prec p)) ∧
    (∀ p, ShrinkP p ((funs n).parseStatement p)) ∧
    (∀ p, ShrinkP p ((funs n).parseLetStatement p)) ∧
    (∀ p, ShrinkP p ((funs n).parseReturnStatement p)) ∧
    (∀ p, ShrinkP p ((funs n).parseExpressionStatement p)) ∧
    (∀ prec left p, p.cur_token ≠ Token.EOF →
      ShrinkP p ((funs n).parseInfixLoop prec left p)) ∧
    (∀ p, ShrinkP p ((funs n).parsePrefixExpressionF p)) ∧
    (∀ left p, ShrinkP p ((funs n).parseInfixExpressionF left p)) ∧
    (∀ p, ShrinkP p ((funs n).parseGroupedExpression p)) ∧
    (∀ p, ShrinkP p ((funs n).parseIfExpressionF p)) ∧
    (∀ p, ShrinkP p ((funs n).parseBlockStatement p)) ∧
    (∀ acc p, ShrinkP p ((funs n).parseBlockLoop acc p)) ∧
    (∀ p, ShrinkP p ((funs n).parseFunctionLiteral p)) ∧
    (∀ p, ShrinkP p ((funs n).parseFunctionParameters p)) ∧
    (∀ acc p, ShrinkP p ((funs n).parseParamsLoop acc p)) ∧
    (∀ p, ShrinkP p ((funs n).parseArrayLiteral p)) ∧
    (∀ p, p.cur_token ≠ Token.EOF →
      ShrinkP p ((funs n).parseHashLiteral p)) ∧
    (∀ acc p, p.cur_token ≠ Token.EOF →
      ShrinkP p ((funs n).parseHashLoop acc p)) ∧
    (∀ endTok p, endTok ≠ Token.EOF →
      ShrinkP p ((funs n).parseExpressionList endTok p)) ∧
    (∀ acc p, p.cur_token ≠ Token.EOF →
      ShrinkP p ((funs n).parseListLoop acc p)) ∧
    (∀ left p, ShrinkP p ((funs n).parseCallExpression left p)) ∧
    (∀ p, ShrinkP p ((funs n).parseCallArguments p)) ∧
    (∀ left p, ShrinkP p ((funs n).parseIndexExpression left p)) := by
  induction n with
  | zero =>
    exact ⟨fun _ _ => ShrinkP.oof, fun _ => ShrinkP.oof, fun _ => ShrinkP.oof,
      fun _ => ShrinkP.oof, fun _ => ShrinkP.oof, fun _ _ _ _ => ShrinkP.oof,
      fun _ => ShrinkP.oof, fun _ _ => ShrinkP.oof, fun _ => ShrinkP.oof,
      fun _ => ShrinkP.oof, fun _ => ShrinkP.oof, fun _ _ => ShrinkP.oof,
      fun _ => ShrinkP.oof, fun _ => ShrinkP.oof, fun _ _ => ShrinkP.oof,
      fun _ => ShrinkP.oof, fun _ _ => ShrinkP.oof, fun _ _ _ => ShrinkP.oof,
      fun _ _ _ => ShrinkP.oof, fun _ _ _ => ShrinkP.oof,
      fun _ _ => ShrinkP.oof, fun _ => ShrinkP.oof, fun _ _ => ShrinkP.oof⟩
  | succ n ih =>
    obtain ⟨hexpr, hstmt, hlet, hret, hexps, hloop, hpre, hinfx, hgrp, hif,
      hblk, hbloop, hfn, hparams, hploop, harr, hhash, hhloop, hlist, hlloop,
      hcall, hargs, hidx⟩ := ih
    exact ⟨shrink_stepExpression hpre hgrp hif hfn harr hhash hloop,
      shrink_stepStatement hlet hret hexps,
      shrink_stepLetStatement hexpr,
      shrink_stepReturnStatement hexpr,
      shrink_stepExpressionStatement hexpr,
      shrink_stepInfixLoop hinfx hcall hidx hloop,
      shrink_stepPrefixExpression hexpr,
      shrink_stepInfixExpression hexpr,
      shrink_stepGroupedExpression hexpr,
      shrink_stepIfExpression hexpr hblk,
      shrink_stepBlockStatement hbloop,
      shrink_stepBlockLoop hstmt hbloop,
      shrink_stepFunctionLiteral hparams hblk,
      shrink_stepFunctionParameters hploop,
      shrink_stepParamsLoop hploop,
      shrink_stepArrayLiteral hlist,
      shrink_stepHashLiteral hhloop,
      shrink_stepHashLoop hexpr hhloop,
      shrink_stepExpressionList hexpr hlloop,
      shrink_stepListLoop hexpr hlloop,
      shrink_stepCallExpression hargs,
      shrink_stepCallArguments hlist,
      shrink_stepIndexExpression hexpr⟩

lemma shrink_parseExpression (n : Nat) (prec : Precedence) (p : Parser) :
    ShrinkP p ((funs n).parseExpressionF prec p) := (shrink_all n).1 prec p

lemma shrink_parseStatement (n : Nat) (p : Parser) :
    ShrinkP p ((funs n).parseStatement p) := (shrink_all n).2.1 p

lemma shrink_parseInfixExpression (n : Nat) (left : Expression) (p : Parser) :
    ShrinkP p ((funs n).parseInfixExpressionF left p) :=
  (shrink_all n).2.2.2.2.2.2.2.1 left p

lemma shrink_parseFunctionParameters (n : Nat) (p : Parser) :
    ShrinkP p ((funs n).parseFunctionParameters p) :=
  (shrink_all n).2.2.2.2.2.2.2.2.2.2.2.2.2.1 p

lemma shrink_parseCallExpression (n : Nat) (left : Expression) (p : Parser) :
    ShrinkP p ((funs n).parseCallExpression left p) :=
  (shrink_all n).2.2.2.2.2.2.2.2.2.2.2.2.2.2.2.2.2.2.2.2.1 left p

lemma shrink_parseIndexExpression (n : Nat) (left : Expression) (p : Parser) :
    ShrinkP p ((funs n).parseIndexExpression left p) :=
  (shrink_all n).2.2.2.2.2.2.2.2.2.2.2.2.2.2.2.2.2.2.2.2.2.2 left p

lemma shrink_stepPrefixDispatch_funs (n : Nat) (prec : Precedence)
    (p : Parser) : ShrinkP p (stepPrefixDispatch (funs n) prec p) := by
  obtain ⟨hexpr, hstmt, hlet, hret, hexps, hloop, hpre, hinfx, hgrp, hif,
    hblk, hbloop, hfn, hparams, hploop, harr, hhash, hhloop, hlist, hlloop,
    hcall, hargs, hidx⟩ := shrink_all n
  exact shrink_stepPrefixDispatch hpre hgrp hif hfn harr hhash prec p

lemma parse_identifier_eq_ok {p : Parser} {i : Ident}
    (h : parse_identifier p = .ok i) :
    p.cur_token = Token.Ident i.name := by
  unfold parse_identifier at h
  split at h
  · rename_i v hv
    injection h with h1
    cases h1
    exact hv
  · simp at h

/-! ### Fuel sufficiency

Enough fuel rules out `outOfFuel`: with fuel above `30 * size + rank` the
routine completes (returning `ok` or `err`).  The rank orders routines
that can call one another at the same state; any call that consumes input
can afford an arbitrary rank because the measure dropped. -/

section SufSteps
variable {n : Nat}

lemma suf_stepParamsLoop
    (hploop : ∀ acc p, 30 * Parser.size p < n →
      (funs n).parseParamsLoop acc p ≠ .outOfFuel)
    (acc : List Ident) (p : Parser) (hb : 30 * p.size < n + 1) :
    stepParamsLoop (funs n) acc p ≠ .outOfFuel := by
  unfold stepParamsLoop
  split
  · rename_i hcomma
    apply hploop
    have h2 : p.next_token.cur_token ≠ Token.EOF := by
      show p.peek_token ≠ Token.EOF
      rw [hcomma]; simp
    have h3 := p.next_token.size_next_lt h2
    have h4 := p.size_next_le
    omega
  · by_cases hpk : p.peek_token = Token.RParen
    · simp only [Parser.expect_peek_pos hpk]; simp
    · simp only [Parser.expect_peek_neg hpk]; simp

lemma suf_stepPrefixExpression
    (hexpr : ∀ prec p, 30 * Parser.size p + 5 < n →
      (funs n).parseExpressionF prec p ≠ .outOfFuel)
    (p : Parser) (hc : p.cur_token ≠ Token.EOF)
    (hb : 30 * p.size + 1 < n + 1) :
    stepPrefixExpression (funs n) p ≠ .outOfFuel := by
  unfold stepPrefixExpression
  refine PR.andThen_ne_oof ?_ fun v q hq => by simp
  apply hexpr
  have := p.size_next_lt hc
  omega

lemma suf_stepInfixExpression
    (hexpr : ∀ prec p, 30 * Parser.size p + 5 < n →
      (funs n).parseExpressionF prec p ≠ .outOfFuel)
    (left : Expression) (p : Parser) (hc : p.cur_token ≠ Token.EOF)
    (hb : 30 * p.size + 1 < n + 1) :
    stepInfixExpression (funs n) left p ≠ .outOfFuel := by
  unfold stepInfixExpression
  refine PR.andThen_ne_oof ?_ fun v q hq => by simp
  apply hexpr
  have := p.size_next_lt hc
  omega

lemma suf_stepGroupedExpression
    (hexpr : ∀ prec p, 30 * Parser.size p + 5 < n →
      (funs n).parseExpressionF prec p ≠ .outOfFuel)
    (p : Parser) (hc : p.cur_token ≠ Token.EOF)
    (hb : 30 * p.size + 1 < n + 1) :
    stepGroupedExpression (funs n) p ≠ .outOfFuel := by
  unfold stepGroupedExpression
  refine PR.andThen_ne_oof ?_ fun v q hq => ?_
  · apply hexpr
    have := p.size_next_lt hc
    omega
  · by_cases hpk : q.peek_token = Token.RParen
    · simp only [Parser.expect_peek_pos hpk]; simp
    · simp only [Parser.expect_peek_neg hpk]; simp

lemma suf_stepIndexExpression
    (hexpr : ∀ prec p, 30 * Parser.size p + 5 < n →
      (funs n).parseExpressionF prec p ≠ .outOfFuel)
    (left : Expression) (p : Parser) (hc : p.cur_token ≠ Token.EOF)
    (hb : 30 * p.size + 1 < n + 1) :
    stepIndexExpression (funs n) left p ≠ .outOfFuel := by
  unfold stepIndexExpression
  refine PR.andThen_ne_oof ?_ fun v q hq => ?_
  · apply hexpr
    have := p.size_next_lt hc
    omega
  · by_cases hpk : q.peek_token = Token.RBracket
    · simp only [Parser.expect_peek_pos hpk]; simp
    · simp only [Parser.expect_peek_neg hpk]; simp

lemma suf_stepExpressionList
    (hexpr : ∀ prec p, 30 * Parser.size p + 5 < n →
      (funs n).parseExpressionF prec p ≠ .outOfFuel)
    (hlloop : ∀ acc p, 30 * Parser.size p + 1 < n →
      (funs n).parseListLoop acc p ≠ .outOfFuel)
    (endTok : Token) (p : Parser) (hc : p.cur_token ≠ Token.EOF)
    (hb : 30 * p.size + 2 < n + 1) :
    stepExpressionList (funs n) endTok p ≠ .outOfFuel := by
  unfold stepExpressionList
  split
  · simp
  · refine PR.andThen_ne_oof ?_ fun e q hq => ?_
    · apply hexpr
      have := p.size_next_lt hc
      omega
    · apply hlloop
      have h1 := (shrink_parseExpression n Precedence.lowest p.next_token hq).1
      have h2 := p.size_next_lt hc
      omega

lemma suf_stepListLoop
    (hexpr : ∀ prec p, 30 * Parser.size p + 5 < n →
      (funs n).parseExpressionF prec p ≠ .outOfFuel)
    (hlloop : ∀ acc p, 30 * Parser.size p + 1 < n →
      (funs n).parseListLoop acc p ≠ .outOfFuel)
    (acc : List Expression) (p : Parser) (hb : 30 * p.size + 1 < n + 1) :
    stepListLoop (funs n) acc p ≠ .outOfFuel := by
  unfold stepListLoop
  split
  · rename_i hcomma
    have h2 : p.next_token.cur_token ≠ Token.EOF := by
      show p.peek_token ≠ Token.EOF
      rw [hcomma]; simp
    have h3 := p.next_token.size_next_lt h2
    have h4 := p.size_next_le
    refine PR.andThen_ne_oof ?_ fun e q hq => ?_
    · apply hexpr
      omega
    · apply hlloop
      have h1 := (shrink_parseExpression n Precedence.lowest
        p.next_token.next_token hq).1
      omega
  · simp

lemma suf_stepHashLoop
    (hexpr : ∀ prec p, 30 * Parser.size p + 5 < n →
      (funs n).parseExpressionF prec p ≠ .outOfFuel)
    (hhloop : ∀ acc p, p.cur_token ≠ Token.EOF →
      30 * Parser.size p + 1 < n → (funs n).parseHashLoop acc p ≠ .outOfFuel)
    (acc : List (Expression × Expression)) (p : Parser)
    (hc : p.cur_token ≠ Token.EOF) (hb : 30 * p.size + 1 < n + 1) :
    stepHashLoop (funs n) acc p ≠ .outOfFuel := by
  unfold stepHashLoop
  split
  · simp
  · have h5 := p.size_next_lt hc
    refine PR.andThen_ne_oof ?_ fun key q hq => ?_
    · apply hexpr
      omega
    · obtain ⟨hq1, hq2⟩ := shrink_parseExpression n Precedence.lowest
        p.next_token hq
      by_cases h2 : q.peek_token = Token.Colon
      · simp only [Parser.expect_peek_pos h2]
        have h3 := q.size_next2_le
        refine PR.andThen_ne_oof ?_ fun value r hr => ?_
        · apply hexpr
          omega
        · obtain ⟨hr1, hr2⟩ := shrink_parseExpression n Precedence.lowest
            q.next_token.next_token hr
          split
          · simp
          · apply hhloop _ _ hr2
            omega
      · simp only [Parser.expect_peek_neg h2]; simp

lemma suf_stepHashLiteral
    (hhloop : ∀ acc p, p.cur_token ≠ Token.EOF →
      30 * Parser.size p + 1 < n → (funs n).parseHashLoop acc p ≠ .outOfFuel)
    (p : Parser) (hc : p.cur_token ≠ Token.EOF)
    (hb : 30 * p.size + 3 < n + 1) :
    stepHashLiteral (funs n) p ≠ .outOfFuel := by
  unfold stepHashLiteral
  refine PR.andThen_ne_oof (hhloop [] p hc (by omega)) fun pairs q hq => ?_
  by_cases hpk : q.peek_token = Token.RBrace
  · simp only [Parser.expect_peek_pos hpk]; simp
  · simp only [Parser.expect_peek_neg hpk]; simp

lemma suf_stepArrayLiteral
    (hlist : ∀ endTok p, p.cur_token ≠ Token.EOF →
      30 * Parser.size p + 2 < n →
      (funs n).parseExpressionList endTok p ≠ .outOfFuel)
    (p : Parser) (hc : p.cur_token ≠ Token.EOF)
    (hb : 30 * p.size + 3 < n + 1) :
    stepArrayLiteral (funs n) p ≠ .outOfFuel := by
  unfold stepArrayLiteral
  refine PR.andThen_ne_oof (hlist .RBracket p hc (by omega))
    fun elems q hq => ?_
  by_cases hpk : q.peek_token = Token.RBracket
  · simp only [Parser.expect_peek_pos hpk]; simp
  · simp only [Parser.expect_peek_neg hpk]; simp

lemma suf_stepCallArguments
    (hlist : ∀ endTok p, p.cur_token ≠ Token.EOF →
      30 * Parser.size p + 2 < n →
      (funs n).parseExpressionList endTok p ≠ .outOfFuel)
    (p : Parser) (hc : p.cur_token ≠ Token.EOF)
    (hb : 30 * p.size + 3 < n + 1) :
    stepCallArguments (funs n) p ≠ .outOfFuel := by
  unfold stepCallArguments
  refine PR.andThen_ne_oof (hlist .RParen p hc (by omega)) fun ret q hq => ?_
  by_cases hpk : q.peek_token = Token.RParen
  · simp only [Parser.expect_peek_pos hpk]; simp
  · simp only [Parser.expect_peek_neg hpk]; simp

lemma suf_stepCallExpression
    (hargs : ∀ p, p.cur_token ≠ Token.EOF → 30 * Parser.size p + 3 < n →
      (funs n).parseCallArguments p ≠ .outOfFuel)
    (function : Expression) (p : Parser) (hc : p.cur_token ≠ Token.EOF)
    (hb : 30 * p.size + 4 < n + 1) :
    stepCallExpression (funs n) function p ≠ .outOfFuel := by
  unfold stepCallExpression
  exact PR.andThen_ne_oof (hargs p hc (by omega)) fun args q hq => by simp

lemma suf_stepBlockStatement
    (hbloop : ∀ acc p, 30 * Parser.size p + 8 < n →
      (funs n).parseBlockLoop acc p ≠ .outOfFuel)
    (p : Parser) (hc : p.cur_token ≠ Token.EOF)
    (hb : 30 * p.size + 1 < n + 1) :
    stepBlockStatement (funs n) p ≠ .outOfFuel := by
  unfold stepBlockStatement
  apply hbloop
  have := p.size_next_lt hc
  omega

lemma suf_stepBlockLoop
    (hstmt : ∀ p, 30 * Parser.size p + 7 < n →
      (funs n).parseStatement p ≠ .outOfFuel)
    (hbloop : ∀ acc p, 30 * Parser.size p + 8 < n →
      (funs n).parseBlockLoop acc p ≠ .outOfFuel)
    (acc : List Statement) (p : Parser) (hb : 30 * p.size + 8 < n + 1) :
    stepBlockLoop (funs n) acc p ≠ .outOfFuel := by
  unfold stepBlockLoop
  split
  · simp
  · refine PR.andThen_ne_oof (hstmt p (by omega)) fun st q hq => ?_
    obtain ⟨h1, h2⟩ := shrink_parseStatement n p hq
    apply hbloop
    have h3 := q.size_next_lt h2
    omega

lemma suf_stepProgramLoop
    (hstmt : ∀ p, 30 * Parser.size p + 7 < n →
      (funs n).parseStatement p ≠ .outOfFuel)
    (hprog : ∀ acc p, 30 * Parser.size p + 8 < n →
      (funs n).parseProgramLoop acc p ≠ .outOfFuel)
    (acc : List Statement) (p : Parser) (hb : 30 * p.size + 8 < n + 1) :
    stepProgramLoop (funs n) acc p ≠ .outOfFuel := by
  unfold stepProgramLoop
  split
  · simp
  · refine PR.andThen_ne_oof (hstmt p (by omega)) fun st q hq => ?_
    obtain ⟨h1, h2⟩ := shrink_parseStatement n p hq
    apply hprog
    have h3 := q.size_next_lt h2
    omega

lemma suf_stepFunctionParameters
    (hploop : ∀ acc p, 30 * Parser.size p < n →
      (funs n).parseParamsLoop acc p ≠ .outOfFuel)
    (p : Parser) (hb : 30 * p.size + 1 < n + 1) :
    stepFunctionParameters (funs n) p ≠ .outOfFuel := by
  unfold stepFunctionParameters
  split
  · simp
  · apply hploop
    have := p.size_next_le
    omega

lemma suf_stepFunctionLiteral
    (hparams : ∀ p, 30 * Parser.size p + 1 < n →
      (funs n).parseFunctionParameters p ≠ .outOfFuel)
    (hblk : ∀ p, p.cur_token ≠ Token.EOF → 30 * Parser.size p + 1 < n →
      (funs n).parseBlockStatement p ≠ .outOfFuel)
    (p : Parser) (hc : p.cur_token ≠ Token.EOF)
    (hb : 30 * p.size + 1 < n + 1) :
    stepFunctionLiteral (funs n) p ≠ .outOfFuel := by
  unfold stepFunctionLiteral
  by_cases h1 : p.peek_token = Token.LParen
  · simp only [Parser.expect_peek_pos h1]
    have h5 := p.size_next_lt hc
    refine PR.andThen_ne_oof ?_ fun params q hq => ?_
    · apply hparams
      omega
    · obtain ⟨hq1, hq2⟩ := shrink_parseFunctionParameters n p.next_token hq
      by_cases h2 : q.peek_token = Token.LBrace
      · simp only [Parser.expect_peek_pos h2]
        refine PR.andThen_ne_oof ?_ fun sts r hr => by simp
        refine hblk q.next_token ?_ ?_
        · show q.peek_token ≠ Token.EOF
          rw [h2]; simp
        · have h3 := q.size_next_le
          omega
      · simp only [Parser.expect_peek_neg h2]; simp
  · simp only [Parser.expect_peek_neg h1]; simp

lemma suf_stepIfExpression
    (hexpr : ∀ prec p, 30 * Parser.size p + 5 < n →
      (funs n).parseExpressionF prec p ≠ .outOfFuel)
    (hblk : ∀ p, p.cur_token ≠ Token.EOF → 30 * Parser.size p + 1 < n →
      (funs n).parseBlockStatement p ≠ .outOfFuel)
    (p : Parser) (hc : p.cur_token ≠ Token.EOF)
    (hb : 30 * p.size + 1 < n + 1) :
    stepIfExpression (funs n) p ≠ .outOfFuel := by
  unfold stepIfExpression
  by_cases h1 : p.peek_token = Token.LParen
  · simp only [Parser.expect_peek_pos h1]
    have h5 := p.size_next_lt hc
    have h6 := p.next_token.size_next_le
    refine PR.andThen_ne_oof ?_ fun cond q hq => ?_
    · apply hexpr
      omega
    · obtain ⟨hq1, hq2⟩ := shrink_parseExpression n Precedence.lowest
        p.next_token.next_token hq
      by_cases h2 : q.peek_token = Token.RParen
      · simp only [Parser.expect_peek_pos h2]
        by_cases h3 : q.next_token.peek_token = Token.LBrace
        · simp only [Parser.expect_peek_pos h3]
          refine PR.andThen_ne_oof ?_ fun cons r hr => by simp
          refine hblk q.next_token.next_token ?_ ?_
          · show q.next_token.peek_token ≠ Token.EOF
            rw [h3]; simp
          · have h4 := q.size_next2_le
            omega
        · simp only [Parser.expect_peek_neg h3]; simp
      · simp only [Parser.expect_peek_neg h2]; simp
  · simp only [Parser.expect_peek_neg h1]; simp

lemma suf_stepPrefixDispatch
    (hpre : ∀ p, p.cur_token ≠ Token.EOF → 30 * Parser.size p + 1 < n →
      (funs n).parsePrefixExpressionF p ≠ .outOfFuel)
    (hgrp : ∀ p, p.cur_token ≠ Token.EOF → 30 * Parser.size p + 1 < n →
      (funs n).parseGroupedExpression p ≠ .outOfFuel)
    (hif : ∀ p, p.cur_token ≠ Token.EOF → 30 * Parser.size p + 1 < n →
      (funs n).parseIfExpressionF p ≠ .outOfFuel)
    (hfn : ∀ p, p.cur_token ≠ Token.EOF → 30 * Parser.size p + 1 < n →
      (funs n).parseFunctionLiteral p ≠ .outOfFuel)
    (harr : ∀ p, p.cur_token ≠ Token.EOF → 30 * Parser.size p + 3 < n →
      (funs n).parseArrayLiteral p ≠ .outOfFuel)
    (hhash : ∀ p, p.cur_token ≠ Token.EOF → 30 * Parser.size p + 3 < n →
      (funs n).parseHashLiteral p ≠ .outOfFuel)
    (precedence : Precedence) (p : Parser) (hb : 30 * p.size + 3 < n) :
    stepPrefixDispatch (funs n) precedence p ≠ .outOfFuel := by
  unfold stepPrefixDispatch
  split
  · rename_i heq
    simp [parse_identifier, heq]
  · rename_i heq
    simp [parse_int_literal, heq, PR.ofExcept]
  · rename_i heq
    simp [parse_bool_literal, heq, PR.ofExcept]
  · rename_i heq
    simp [parse_string_literal, heq, PR.ofExcept]
  · rename_i heq
    split
    · simp
    · exact hpre p (by simp [heq]) (by omega)
  · rename_i heq
    split
    · simp
    · exact hpre p (by simp [heq]) (by omega)
  · rename_i heq
    exact hgrp p (by simp [heq]) (by omega)
  · rename_i heq
    exact hif p (by simp [heq]) (by omega)
  · rename_i heq
    exact hfn p (by simp [heq]) (by omega)
  · rename_i heq
    exact harr p (by simp [heq]) (by omega)
  · rename_i heq
    exact hhash p (by simp [heq]) (by omega)
  · simp

lemma suf_stepExpression
    (hpre : ∀ p, p.cur_token ≠ Token.EOF → 30 * Parser.size p + 1 < n →
      (funs n).parsePrefixExpressionF p ≠ .outOfFuel)
    (hgrp : ∀ p, p.cur_token ≠ Token.EOF → 30 * Parser.size p + 1 < n →
      (funs n).parseGroupedExpression p ≠ .outOfFuel)
    (hif : ∀ p, p.cur_token ≠ Token.EOF → 30 * Parser.size p + 1 < n →
      (funs n).parseIfExpressionF p ≠ .outOfFuel)
    (hfn : ∀ p, p.cur_token ≠ Token.EOF → 30 * Parser.size p + 1 < n →
      (funs n).parseFunctionLiteral p ≠ .outOfFuel)
    (harr : ∀ p, p.cur_token ≠ Token.EOF → 30 * Parser.size p + 3 < n →
      (funs n).parseArrayLiteral p ≠ .outOfFuel)
    (hhash : ∀ p, p.cur_token ≠ Token.EOF → 30 * Parser.size p + 3 < n →
      (funs n).parseHashLiteral p ≠ .outOfFuel)
    (hloop : ∀ prec left p, p.cur_token ≠ Token.EOF →
      30 * Parser.size p + 1 < n → (funs n).parseInfixLoop prec left p ≠
      .outOfFuel)
    (precedence : Precedence) (p : Parser) (hb : 30 * p.size + 5 < n + 1) :
    stepExpression (funs n) precedence p ≠ .outOfFuel := by
  unfold stepExpression
  refine PR.andThen_ne_oof
    (suf_stepPrefixDispatch hpre hgrp hif hfn harr hhash precedence p
      (by omega)) fun v q hq => ?_
  obtain ⟨hq1, hq2⟩ := shrink_stepPrefixDispatch_funs n precedence p hq
  exact hloop precedence v q hq2 (by omega)

lemma suf_stepInfixDispatch
    (hinfx : ∀ left p, p.cur_token ≠ Token.EOF →
      30 * Parser.size p + 1 < n →
      (funs n).parseInfixExpressionF left p ≠ .outOfFuel)
    (hcall : ∀ left p, p.cur_token ≠ Token.EOF →
      30 * Parser.size p + 4 < n →
      (funs n).parseCallExpression left p ≠ .outOfFuel)
    (hidx : ∀ left p, p.cur_token ≠ Token.EOF →
      30 * Parser.size p + 1 < n →
      (funs n).parseIndexExpression left p ≠ .outOfFuel)
    (hloop : ∀ prec left p, p.cur_token ≠ Token.EOF →
      30 * Parser.size p + 1 < n → (funs n).parseInfixLoop prec left p ≠
      .outOfFuel)
    (precedence : Precedence) (left : Expression) (p : Parser)
    (hc : p.cur_token ≠ Token.EOF) (hb : 30 * p.size + 4 < n) :
    stepInfixDispatch (funs n) precedence left p ≠ .outOfFuel := by
  unfold stepInfixDispatch
  split <;>
    first
      | (refine PR.andThen_ne_oof (hinfx _ p hc (by omega)) fun v q hq => ?_
         obtain ⟨h1, h2⟩ := shrink_parseInfixExpression n _ p hq
         exact hloop _ v q h2 (by omega))
      | (refine PR.andThen_ne_oof (hcall _ p hc (by omega)) fun v q hq => ?_
         obtain ⟨h1, h2⟩ := shrink_parseCallExpression n _ p hq
         exact hloop _ v q h2 (by omega))
      | (refine PR.andThen_ne_oof (hidx _ p hc (by omega)) fun v q hq => ?_
         obtain ⟨h1, h2⟩ := shrink_parseIndexExpression n _ p hq
         exact hloop _ v q h2 (by omega))
      | simp

lemma suf_stepInfixLoop
    (hinfx : ∀ left p, p.cur_token ≠ Token.EOF →
      30 * Parser.size p + 1 < n →
      (funs n).parseInfixExpressionF left p ≠ .outOfFuel)
    (hcall : ∀ left p, p.cur_token ≠ Token.EOF →
      30 * Parser.size p + 4 < n →
      (funs n).parseCallExpression left p ≠ .outOfFuel)
    (hidx : ∀ left p, p.cur_token ≠ Token.EOF →
      30 * Parser.size p + 1 < n →
      (funs n).parseIndexExpression left p ≠ .outOfFuel)
    (hloop : ∀ prec left p, p.cur_token ≠ Token.EOF →
      30 * Parser.size p + 1 < n → (funs n).parseInfixLoop prec left p ≠
      .outOfFuel)
    (precedence : Precedence) (left : Expression) (p : Parser)
    (hc : p.cur_token ≠ Token.EOF) (hb : 30 * p.size + 1 < n + 1) :
    stepInfixLoop (funs n) precedence left p ≠ .outOfFuel := by
  unfold stepInfixLoop
  split
  · simp
  · rename_i hcond
    have hpeek : p.peek_token ≠ Token.EOF := by
      intro he
      exact hcond (Or.inr (by rw [he]; exact Nat.zero_le _))
    refine suf_stepInfixDispatch hinfx hcall hidx hloop precedence left
      p.next_token hpeek ?_
    have := p.size_next_lt hc
    omega

lemma suf_stepLetCore
    (hexpr : ∀ prec p, 30 * Parser.size p + 5 < n →
      (funs n).parseExpressionF prec p ≠ .outOfFuel)
    (p : Parser) (hb : 30 * p.size + 1 < n + 1) :
    stepLetCore (funs n) p ≠ .outOfFuel := by
  unfold stepLetCore
  split
  · simp
  · rename_i name hident
    by_cases hpk : p.peek_token = Token.Assign
    · simp only [Parser.expect_peek_pos hpk]
      refine PR.andThen_ne_oof ?_ fun v q hq => by simp
      apply hexpr
      have hcur : p.cur_token ≠ Token.EOF := by
        rw [parse_identifier_eq_ok hident]; simp
      have h2 := p.size_next_lt hcur
      have h3 := p.next_token.size_next_le
      omega
    · simp only [Parser.expect_peek_neg hpk]; simp

lemma suf_stepLetStatement
    (hexpr : ∀ prec p, 30 * Parser.size p + 5 < n →
      (funs n).parseExpressionF prec p ≠ .outOfFuel)
    (p : Parser) (hb : 30 * p.size + 1 < n + 1) :
    stepLetStatement (funs n) p ≠ .outOfFuel := by
  unfold stepLetStatement
  apply suf_stepLetCore hexpr
  split
  · have := p.size_next_le
    omega
  · omega

lemma suf_stepReturnStatement
    (hexpr : ∀ prec p, 30 * Parser.size p + 5 < n →
      (funs n).parseExpressionF prec p ≠ .outOfFuel)
    (p : Parser) (hb : 30 * p.size + 6 < n + 1) :
    stepReturnStatement (funs n) p ≠ .outOfFuel := by
  unfold stepReturnStatement
  refine PR.andThen_ne_oof ?_ fun v q hq => by simp
  apply hexpr
  have := p.size_next_le
  omega

lemma suf_stepExpressionStatement
    (hexpr : ∀ prec p, 30 * Parser.size p + 5 < n →
      (funs n).parseExpressionF prec p ≠ .outOfFuel)
    (p : Parser) (hb : 30 * p.size + 6 < n + 1) :
    stepExpressionStatement (funs n) p ≠ .outOfFuel := by
  unfold stepExpressionStatement
  exact PR.andThen_ne_oof (hexpr Precedence.lowest p (by omega))
    fun v q hq => by simp

lemma suf_stepStatement
    (hlet : ∀ p, 30 * Parser.size p + 1 < n →
      (funs n).parseLetStatement p ≠ .outOfFuel)
    (hret : ∀ p, 30 * Parser.size p + 6 < n →
      (funs n).parseReturnStatement p ≠ .outOfFuel)
    (hexps : ∀ p, 30 * Parser.size p + 6 < n →
      (funs n).parseExpressionStatement p ≠ .outOfFuel)
    (p : Parser) (hb : 30 * p.size + 7 < n + 1) :
    stepStatement (funs n) p ≠ .outOfFuel := by
  unfold stepStatement
  split
  · exact hlet p (by omega)
  · exact hret p (by omega)
  · exact hexps p (by omega)

end SufSteps

/-- Fuel sufficiency for every routine: with fuel above
`30 * measure + rank` no routine runs out of fuel. -/
theorem suf_all (n : Nat) :
    (∀ acc p, 30 * Parser.size p + 8 < n →
      (funs n).parseProgramLoop acc p ≠ .outOfFuel) ∧
    (∀ p, 30 * Parser.size p + 7 < n →
      (funs n).parseStatement p ≠ .outOfFuel) ∧
    (∀ p, 30 * Parser.size p + 1 < n →
      (funs n).parseLetStatement p ≠ .outOfFuel) ∧
    (∀ p, 30 * Parser.size p + 6 < n →
      (funs n).parseReturnStatement p ≠ .outOfFuel) ∧
    (∀ p, 30 * Parser.size p + 6 < n →
      (funs n).parseExpressionStatement p ≠ .outOfFuel) ∧
    (∀ prec p, 30 * Parser.size p + 5 < n →
      (funs n).parseExpressionF prec p ≠ .outOfFuel) ∧
    (∀ prec left p, p.cur_token ≠ Token.EOF → 30 * Parser.size p + 1 < n →
      (funs n).parseInfixLoop prec left p ≠ .outOfFuel) ∧
    (∀ p, p.cur_token ≠ Token.EOF → 30 * Parser.size p + 1 < n →
      (funs n).parsePrefixExpressionF p ≠ .outOfFuel) ∧
    (∀ left p, p.cur_token ≠ Token.EOF → 30 * Parser.size p + 1 < n →
      (funs n).parseInfixExpressionF left p ≠ .outOfFuel) ∧
    (∀ p, p.cur_token ≠ Token.EOF → 30 * Parser.size p + 1 < n →
      (funs n).parseGroupedExpression p ≠ .outOfFuel) ∧
    (∀ p, p.cur_token ≠ Token.EOF → 30 * Parser.size p + 1 < n →
      (funs n).parseIfExpressionF p ≠ .outOfFuel) ∧
    (∀ p, p.cur_token ≠ Token.EOF → 30 * Parser.size p + 1 < n →
      (funs n).parseBlockStatement p ≠ .outOfFuel) ∧
    (∀ acc p, 30 * Parser.size p + 8 < n →
      (funs n).parseBlockLoop acc p ≠ .outOfFuel) ∧
    (∀ p, p.cur_token ≠ Token.EOF → 30 * Parser.size p + 1 < n →
      (funs n).parseFunctionLiteral p ≠ .outOfFuel) ∧
    (∀ p, 30 * Parser.size p + 1 < n →
      (funs n).parseFunctionParameters p ≠ .outOfFuel) ∧
    (∀ acc p, 30 * Parser.size p < n →
      (funs n).parseParamsLoop acc p ≠ .outOfFuel) ∧
    (∀ p, p.cur_token ≠ Token.EOF → 30 * Parser.size p + 3 < n →
      (funs n).parseArrayLiteral p ≠ .outOfFuel) ∧
    (∀ p, p.cur_token ≠ Token.EOF → 30 * Parser.size p + 3 < n →
      (funs n).parseHashLiteral p ≠ .outOfFuel) ∧
    (∀ acc p, p.cur_token ≠ Token.EOF → 30 * Parser.size p + 1 < n →
      (funs n).parseHashLoop acc p ≠ .outOfFuel) ∧
    (∀ endTok p, p.cur_token ≠ Token.EOF → 30 * Parser.size p + 2 < n →
      (funs n).parseExpressionList endTok p ≠ .outOfFuel) ∧
    (∀ acc p, 30 * Parser.size p + 1 < n →
      (funs n).parseListLoop acc p ≠ .outOfFuel) ∧
    (∀ left p, p.cur_token ≠ Token.EOF → 30 * Parser.size p + 4 < n →
      (funs n).parseCallExpression left p ≠ .outOfFuel) ∧
    (∀ p, p.cur_token ≠ Token.EOF → 30 * Parser.size p + 3 < n →
      (funs n).parseCallArguments p ≠ .outOfFuel) ∧
    (∀ left p, p.cur_token ≠ Token.EOF → 30 * Parser.size p + 1 < n →
      (funs n).parseIndexExpression left p ≠ .outOfFuel) := by
  induction n with
  | zero =>
    refine ⟨?_, ?_, ?_, ?_, ?_, ?_, ?_, ?_, ?_, ?_, ?_, ?_, ?_, ?_, ?_, ?_,
      ?_, ?_, ?_, ?_, ?_, ?_, ?_, ?_⟩ <;> (intros; exfalso; omega)
  | succ n ih =>
    obtain ⟨hprog, hstmt, hlet, hret, hexps, hexpr, hloop, hpre, hinfx,
      hgrp, hif, hblk, hbloop, hfn, hparams, hploop, harr, hhash, hhloop,
      hlist, hlloop, hcall, hargs, hidx⟩ := ih
    exact ⟨suf_stepProgramLoop hstmt hprog,
      suf_stepStatement hlet hret hexps,
      suf_stepLetStatement hexpr,
      suf_stepReturnStatement hexpr,
      suf_stepExpressionStatement hexpr,
      suf_stepExpression hpre hgrp hif hfn harr hhash hloop,
      suf_stepInfixLoop hinfx hcall hidx hloop,
      suf_stepPrefixExpression hexpr,
      suf_stepInfixExpression hexpr,
      suf_stepGroupedExpression hexpr,
      suf_stepIfExpression hexpr hblk,
      suf_stepBlockStatement hbloop,
      suf_stepBlockLoop hstmt hbloop,
      suf_stepFunctionLiteral hparams hblk,
      suf_stepFunctionParameters hploop,
      suf_stepParamsLoop hploop,
      suf_stepArrayLiteral hlist,
      suf_stepHashLiteral hhloop,
      suf_stepHashLoop hexpr hhloop,
      suf_stepExpressionList hexpr hlloop,
      suf_stepListLoop hexpr hlloop,
      suf_stepCallExpression hargs,
      suf_stepCallArguments hlist,
      suf_stepIndexExpression hexpr⟩

/-- On every finite token stream, some fuel value suffices: `parse_program`
completes with a `Program` or a `ParseError`. -/
theorem parse_program_sufficient_fuel (ts : List Token) :
    parse_program (30 * (Parser.new ts).size + 9) (Parser.new ts) ≠
      .outOfFuel :=
  (suf_all (30 * (Parser.new ts).size + 9)).1 [] (Parser.new ts) (by omega)

/-! ### Facts about individual routines used by the claims -/

lemma funs_zero_eq : funs 0 = funsZero := rfl

lemma funs_succ_eq (n : Nat) : funs (n + 1) = funsStep (funs n) := rfl

/-- The block loop only returns successfully when the closing brace is the
current token (src/parser/mod.rs:307): the block's `}` is left in place. -/
lemma blockLoop_ok_cur (n : Nat) :
    ∀ acc p (a : List Statement) p',
      (funs n).parseBlockLoop acc p = .ok a p' →
      p'.cur_token = Token.RBrace := by
  induction n with
  | zero =>
    intro acc p a p' h
    simp [funs_zero_eq, funsZero] at h
  | succ m ih =>
    intro acc p a p' h
    change stepBlockLoop (funs m) acc p = .ok a p' at h
    unfold stepBlockLoop at h
    split at h
    · rename_i hcur
      cases h
      exact hcur
    · obtain ⟨st, q, h1, h2⟩ := PR.andThen_eq_ok h
      exact ih _ _ _ _ h2

/-- A successful `parse_block_statement` leaves the closing brace as the
current token. -/
lemma blockStatement_ok_cur (n : Nat) :
    ∀ p (a : List Statement) p',
      (funs n).parseBlockStatement p = .ok a p' →
      p'.cur_token = Token.RBrace := by
  intro p a p' h
  match n with
  | 0 => simp [funs_zero_eq, funsZero] at h
  | m + 1 =>
    change stepBlockStatement (funs m) p = .ok a p' at h
    unfold stepBlockStatement at h
    exact blockLoop_ok_cur m _ _ _ _ h

/-- `parse_expression` can never succeed when the current token is `,`:
the prefix dispatch has no rule for it (src/parser/mod.rs:179-181). -/
lemma parseExpressionF_comma_not_ok (n : Nat) {prec : Precedence}
    {p : Parser} (hc : p.cur_token = Token.Comma) (e : Expression)
    (q : Parser) : (funs n).parseExpressionF prec p ≠ .ok e q := by
  intro h
  match n with
  | 0 => simp [funs_zero_eq, funsZero] at h
  | m + 1 =>
    change stepExpression (funs m) prec p = .ok e q at h
    unfold stepExpression at h
    obtain ⟨v, r, h1, h2⟩ := PR.andThen_eq_ok h
    unfold stepPrefixDispatch at h1
    rw [hc] at h1
    simp at h1

/-- The hash-literal loop can append at most one pair beyond its
accumulator: after a pair, peek is `}` (loop exits) or `,` (the next
iteration advances onto the comma and tries to parse it as a key
expression, which fails). -/
lemma hashLoop_ok_shape (n : Nat) :
    ∀ acc p (res : List (Expression × Expression)) p',
      (funs n).parseHashLoop acc p = .ok res p' →
      res = acc ∨ ∃ kv, res = acc ++ [kv] := by
  intro acc p res p' h
  match n with
  | 0 => simp [funs_zero_eq, funsZero] at h
  | m + 1 =>
    change stepHashLoop (funs m) acc p = .ok res p' at h
    unfold stepHashLoop at h
    split at h
    · cases h
      exact Or.inl rfl
    · obtain ⟨key, q, h1, h2⟩ := PR.andThen_eq_ok h
      split at h2
      · simp at h2
      · obtain ⟨value, r, h3, h4⟩ := PR.andThen_eq_ok h2
        split at h4
        · simp at h4
        · rename_i hcond2
          by_cases hrb : r.peek_token = Token.RBrace
          · match m with
            | 0 => simp [funs_zero_eq, funsZero] at h4
            | k + 1 =>
              change stepHashLoop (funs k) _ r = .ok res p' at h4
              unfold stepHashLoop at h4
              rw [if_pos hrb] at h4
              cases h4
              exact Or.inr ⟨(key, value), rfl⟩
          · have hcm : r.peek_token = Token.Comma := by
              rcases not_and_or.mp hcond2 with hx | hx
              · exact absurd (not_not.mp hx) hrb
              · exact not_not.mp hx
            match m with
            | 0 => simp [funs_zero_eq, funsZero] at h4
            | k + 1 =>
              change stepHashLoop (funs k) _ r = .ok res p' at h4
              unfold stepHashLoop at h4
              rw [if_neg hrb] at h4
              obtain ⟨k2, s, h5, h6⟩ := PR.andThen_eq_ok h4
              exact absurd h5 (parseExpressionF_comma_not_ok k
                (show r.next_token.cur_token = Token.Comma from hcm) k2 s)

/-- The parameter loop's only error is the missing-`)` one: a
non-identifier token in parameter position is skipped, never reported. -/
lemma paramsLoop_err (n : Nat) :
    ∀ acc p msg, (funs n).parseParamsLoop acc p = .err msg →
      msg = "')' expected for function parameters expression." := by
  induction n with
  | zero =>
    intro acc p msg h
    simp [funs_zero_eq, funsZero] at h
  | succ m ih =>
    intro acc p msg h
    change stepParamsLoop (funs m) acc p = .err msg at h
    unfold stepParamsLoop at h
    split at h
    · exact ih _ _ _ h
    · split at h
      · simp at h
      · cases h
        rfl

/-- The only error `parse_function_parameters` can report is the
missing-`)` one. -/
lemma parse_function_parameters_err (fuel : Nat) (p : Parser) (msg : String)
    (h : parse_function_parameters fuel p = .err msg) :
    msg = "')' expected for function parameters expression." := by
  match fuel with
  | 0 => simp [parse_function_parameters, funs_zero_eq, funsZero] at h
  | m + 1 =>
    have h' : stepFunctionParameters (funs m) p = .err msg := h
    unfold stepFunctionParameters at h'
    split at h'
    · simp at h'
    · exact paramsLoop_err m _ _ _ h'

/-! ### The claims -/

/-- C1: the claim says `[]` parses as an ArrayLiteral with zero elements,
`{}` as a HashLiteral with zero pairs, and a call with no arguments parses
with an empty argument list, because the shared expression-list routine
leaves the terminator for the caller.  The code disagrees on the array and
call cases: the empty branch of `parse_expression_list`
(src/parser/mod.rs:371-374) advances onto the terminator, after which the
caller's `expect_peek` demands a second terminator, so `[]` and `f()`
always return a ParseError; only `{}` (parsed by the separate
`parse_hash_literal`) yields an empty aggregate.  This theorem evaluates
the code at the three inputs. -/
theorem claim_C1_empty_aggregates :
    parse 30 [Token.LBracket, Token.RBracket] =
      some (.error "']' expected for array definition.") ∧
    parse 30 [Token.LBrace, Token.RBrace] =
      some (.ok ⟨[.ExpressionStatement (.HashLiteral [])]⟩) ∧
    parse 30 [Token.Ident "f", Token.LParen, Token.RParen] =
      some (.error "')' expected for function call.") :=
  ⟨rfl, rfl, rfl⟩

/-- C2: every successfully parsed conditional expression has the empty
statement sequence as its alternative block, regardless of the tokens
following the consequence; no `else` is consumed — on success the current
token is still the consequence's closing `}`, so everything after it
(an `else` included) is untouched in the stream. -/
theorem claim_C2_if_alternative_empty (fuel : Nat) (p p' : Parser)
    (e : Expression) (h : parse_if_expression fuel p = .ok e p') :
    (∃ cond cons, e = .IfExpression cond cons []) ∧
    p'.cur_token = Token.RBrace := by
  match fuel with
  | 0 => simp [parse_if_expression, funs_zero_eq, funsZero] at h
  | n + 1 =>
    have h' : stepIfExpression (funs n) p = .ok e p' := h
    unfold stepIfExpression at h'
    split at h'
    · simp at h'
    · obtain ⟨cond, q, h1, h2⟩ := PR.andThen_eq_ok h'
      split at h2
      · simp at h2
      · split at h2
        · simp at h2
        · obtain ⟨cons, r, h3, h4⟩ := PR.andThen_eq_ok h2
          cases h4
          exact ⟨⟨cond, cons, rfl⟩, blockStatement_ok_cur n _ _ _ h3⟩

/-- C2 witness: `if (x) { y } else { z }` fed to `parse_if_expression`
yields an IfExpression with empty alternative, and leaves the consequence's
closing brace as the current token with the `else` still unconsumed. -/
theorem claim_C2_witness :
    (∃ cond cons,
      Expression.IfExpression (.Identifier ⟨"x"⟩)
        [.ExpressionStatement (.Identifier ⟨"y"⟩)] [] =
        .IfExpression cond cons []) ∧
    (Parser.mk Token.RBrace Token.Else
      [Token.LBrace, Token.Ident "z", Token.RBrace]).cur_token =
      Token.RBrace :=
  claim_C2_if_alternative_empty 30
    (Parser.new [Token.If, Token.LParen, Token.Ident "x", Token.RParen,
      Token.LBrace, Token.Ident "y", Token.RBrace, Token.Else,
      Token.LBrace, Token.Ident "z", Token.RBrace]) _ _ rfl

/-- C3: on every finite token stream `parse_program` terminates — some
fuel value is enough, and the result is then a `Program` or a
`ParseError`, never fuel exhaustion; in particular the unterminated block
`function () {` fails with the no-prefix-rule error raised when statement
parsing reaches end-of-input. -/
theorem claim_C3_termination :
    (∀ ts : List Token, ∃ fuel, parse fuel ts ≠ none) ∧
    parse 30 [Token.Function, Token.LParen, Token.RParen, Token.LBrace] =
      some (.error "no prefix parse function for EOF") := by
  constructor
  · intro ts
    refine ⟨30 * (Parser.new ts).size + 9, ?_⟩
    show (parse_program _ _).strip ≠ none
    rw [Ne, PR.strip_eq_none_iff]
    exact parse_program_sufficient_fuel ts
  · rfl

/-- C4: multiplication binds tighter than addition — `1 + 2 * 3` parses
with the multiplication as the right operand of the addition. -/
theorem claim_C4_precedence :
    parse 30 [Token.IntT 1, Token.Plus, Token.IntT 2, Token.Asterisk,
      Token.IntT 3] =
      some (.ok ⟨[.ExpressionStatement (.InfixExpression (.IntLiteral 1)
        .Plus (.InfixExpression (.IntLiteral 2) .Asterisk
          (.IntLiteral 3)))]⟩) :=
  rfl

/-- C5: equal-precedence operators are left-associative — `1 - 2 - 3`
parses left-nested. -/
theorem claim_C5_left_assoc :
    parse 30 [Token.IntT 1, Token.Minus, Token.IntT 2, Token.Minus,
      Token.IntT 3] =
      some (.ok ⟨[.ExpressionStatement (.InfixExpression
        (.InfixExpression (.IntLiteral 1) .Minus (.IntLiteral 2))
        .Minus (.IntLiteral 3))]⟩) :=
  rfl

/-- C6: unary minus binds one level tighter than the plain prefix level
while `!` binds at the plain prefix level — `-a * b` parses as
`(-a) * b`, and `!-a` parses as `!(-a)`. -/
theorem claim_C6_unary_minus :
    parse 30 [Token.Minus, Token.Ident "a", Token.Asterisk,
      Token.Ident "b"] =
      some (.ok ⟨[.ExpressionStatement (.InfixExpression
        (.PrefixExpression .Minus (.Identifier ⟨"a"⟩)) .Asterisk
        (.Identifier ⟨"b"⟩))]⟩) ∧
    parse 30 [Token.Bang, Token.Minus, Token.Ident "a"] =
      some (.ok ⟨[.ExpressionStatement (.PrefixExpression .Bang
        (.PrefixExpression .Minus (.Identifier ⟨"a"⟩)))]⟩) :=
  ⟨rfl, rfl⟩

/-- C7: when `parse_expression` is invoked with a minimum precedence
strictly above the prefix level and the current token is `!` or `-`, it
returns the grouping-expected syntax error; consequently `--x` and `-!x`,
where a unary operator is the right operand of unary minus, fail to
parse. -/
theorem claim_C7_prefix_guard :
    (∀ fuel prec (p : Parser), Precedence.unary < prec →
      p.cur_token = Token.Bang ∨ p.cur_token = Token.Minus →
      parse_expression (fuel + 1) prec p =
        .err ("'(' expected after prefix '" ++ p.cur_token.displayStr ++
          "'")) ∧
    parse 30 [Token.Minus, Token.Minus, Token.Ident "x"] =
      some (.error "'(' expected after prefix '-'") ∧
    parse 30 [Token.Minus, Token.Bang, Token.Ident "x"] =
      some (.error "'(' expected after prefix '!'") := by
  refine ⟨?_, rfl, rfl⟩
  intro fuel prec p hprec hcur
  rw [show parse_expression (fuel + 1) prec p =
    stepExpression (funs fuel) prec p from rfl]
  unfold stepExpression stepPrefixDispatch
  rcases hcur with hc | hc <;> rw [hc] <;>
    simp only [if_pos hprec, PR.andThen_err_ctor]

/-- C7 witness: at minimum precedence Call/Index (one above the prefix
level) with `-` as the current token, `parse_expression` reports the
grouping-expected error. -/
theorem claim_C7_witness :
    Precedence.unary < Precedence.callIndex ∧
    parse_expression 5 Precedence.callIndex
      (Parser.mk Token.Minus (Token.Ident "x") []) =
      .err "'(' expected after prefix '-'" :=
  ⟨by decide, claim_C7_prefix_guard.1 4 Precedence.callIndex
    (Parser.mk Token.Minus (Token.Ident "x") []) (by decide) (Or.inr rfl)⟩

/-- C8: a let statement missing its `=` fails cleanly — `let x 5;` yields
the missing-equals ParseError and no Program. -/
theorem claim_C8_let_missing_eq :
    parse 30 [Token.Let, Token.Ident "x", Token.IntT 5, Token.Semicolon] =
      some (.error "no equal sign!") :=
  rfl

/-- C9: only zero-pair and one-pair hash literals can parse: every
successful `parse_hash_literal` returns at most one pair (after the first
pair the loop advances onto the separating `,` and tries to parse it as a
key expression, which has no prefix rule), and the concrete two-pair input
`{a: 1, b: 2}` fails with the no-prefix-rule-for-comma error. -/
theorem claim_C9_hash_at_most_one_pair :
    (∀ fuel (p p' : Parser) (e : Expression),
      parse_hash_literal fuel p = .ok e p' →
      ∃ pairs, e = .HashLiteral pairs ∧ pairs.length ≤ 1) ∧
    parse 30 [Token.LBrace, Token.Ident "a", Token.Colon, Token.IntT 1,
      Token.Comma, Token.Ident "b", Token.Colon, Token.IntT 2,
      Token.RBrace] =
      some (.error "no prefix parse function for Comma") := by
  refine ⟨?_, rfl⟩
  intro fuel p p' e h
  match fuel with
  | 0 => simp [parse_hash_literal, funs_zero_eq, funsZero] at h
  | n + 1 =>
    have h' : stepHashLiteral (funs n) p = .ok e p' := h
    unfold stepHashLiteral at h'
    obtain ⟨pairs, q, h1, h2⟩ := PR.andThen_eq_ok h'
    have hlen : pairs.length ≤ 1 := by
      rcases hashLoop_ok_shape n [] p pairs q h1 with h3 | ⟨kv, h3⟩ <;>
        subst h3 <;> simp
    split at h2
    · cases h2
      exact ⟨pairs, rfl, hlen⟩
    · simp at h2

/-- C9 witness: the one-pair hash `{a: 1}` parses, and the theorem applied
to it yields a pair list of length at most one. -/
theorem claim_C9_witness :
    ∃ pairs,
      Expression.HashLiteral [(.Identifier ⟨"a"⟩, .IntLiteral 1)] =
        .HashLiteral pairs ∧ pairs.length ≤ 1 :=
  claim_C9_hash_at_most_one_pair.1 30
    (Parser.new [Token.LBrace, Token.Ident "a", Token.Colon, Token.IntT 1,
      Token.RBrace]) _ _ rfl

/-- C10: non-identifier tokens in a function literal's parameter list are
silently skipped rather than rejected — `function (1) {}` parses with zero
parameters, `function (1, b) {}` parses with only `b`, and the only error
`parse_function_parameters` can ever report is the missing-`)` one. -/
theorem claim_C10_params_skip_non_idents :
    parse 30 [Token.Function, Token.LParen, Token.IntT 1, Token.RParen,
      Token.LBrace, Token.RBrace] =
      some (.ok ⟨[.ExpressionStatement (.FunctionExpression [] [])]⟩) ∧
    parse 30 [Token.Function, Token.LParen, Token.IntT 1, Token.Comma,
      Token.Ident "b", Token.RParen, Token.LBrace, Token.RBrace] =
      some (.ok ⟨[.ExpressionStatement
        (.FunctionExpression [⟨"b"⟩] [])]⟩) ∧
    (∀ fuel p msg, parse_function_parameters fuel p = .err msg →
      msg = "')' expected for function parameters expression.") :=
  ⟨rfl, rfl, parse_function_parameters_err⟩

/-- C10 witness: on `( 1` with no closing parenthesis the parameter parser
errors, and the theorem identifies the error as the missing-`)` one — the
non-identifier `1` itself raised no error. -/
theorem claim_C10_witness :
    parse_function_parameters 30 (Parser.mk Token.LParen (Token.IntT 1) []) =
      .err "')' expected for function parameters expression." ∧
    "')' expected for function parameters expression." =
      "')' expected for function parameters expression." :=
  ⟨rfl, claim_C10_params_skip_non_idents.2.2 30
    (Parser.mk Token.LParen (Token.IntT 1) []) _ rfl⟩

end MonkeyParsing
